import Mathlib

/-!
Shallow embedding of the NanoDS container library (src/src/*.h) in Lean 4,
together with proofs of the specification's claims about it.

Modelling conventions:
* `size_t` is modelled as `ℕ`; wherever the C code can wrap or checks for
  overflow, the embedding computes modulo `SIZE_MAX + 1 = 2^64` explicitly
  (a 64-bit platform is assumed).
* Heap allocation may fail in C; every allocating operation therefore takes
  explicit `Bool` parameters (or an oracle `ℕ → Bool`), one per allocation
  call site, telling whether that allocation succeeds.
* The embedding models the `NANODS_HARD_SAFETY` build (checks return error
  codes).  For the one claim that compares the two build modes, additional
  mode-parametric definitions are given (`nv_popM`, ...), where the debug
  build's failed `assert` is modelled by the `Option.none` outcome.
* Containers are passed and returned by value; a C function mutating
  `*vec` is modelled as returning the new state.  Out-parameters that the
  code null-checks are modelled by a `Bool` saying whether the pointer is
  null, and the written value (if any) is returned as an `Option`.
* C strings (map keys) are modelled as their byte lists before the NUL
  terminator; `strcmp == 0` is list equality.  `void*` values are modelled
  as `ℕ`, with `0` playing the role of the null pointer.
-/

set_option autoImplicit false

namespace NanoDS

/-- Error codes from `core.h` (`NanoDSError`). -/
inductive Err where
  | ok
  | nomem
  | bounds
  | empty
  | overflow
  | notfound
  | nullArg
  | full
deriving DecidableEq, Repr

/-- The integer value each enumerator has in `core.h`. -/
def errCode : Err → ℤ
  | .ok => 0
  | .nomem => -1
  | .bounds => -2
  | .empty => -3
  | .overflow => -4
  | .notfound => -5
  | .nullArg => -6
  | .full => -7

/-- `SIZE_MAX` on the modelled 64-bit platform. -/
def SIZE_MAX : ℕ := 2 ^ 64 - 1

/-- `nanods_check_mul_overflow` from `core.h`: returns `true` iff the
multiplication would overflow `size_t` (in which case the result slot is
not written). -/
def nanods_check_mul_overflow (a b : ℕ) : Bool :=
  decide (a > 0) && decide (b > SIZE_MAX / a)

/-- `nanods_check_add_overflow` from `core.h`. -/
def nanods_check_add_overflow (a b : ℕ) : Bool :=
  decide (a > SIZE_MAX - b)

/-! ## Vector (`vector_impl.h`), generic over the element type `T`;
`sizeofT` stands for the C `sizeof(T)`. -/

/-- `NanoVector_T`: backing buffer, logical size, capacity.  The backing
buffer (`data`) is modelled as a list of length `capacity` in every
reachable state; slots at positions `≥ size` model uninitialized memory. -/
structure NanoVector (T : Type) where
  data : List T
  size : ℕ
  capacity : ℕ
deriving DecidableEq, Repr

/-- `nv_init_T`: zeroed state (`data = NULL`, size = capacity = 0). -/
def nv_init (T : Type) : NanoVector T := ⟨[], 0, 0⟩

/-- Model of `realloc` growing (or shrinking) the backing buffer to `n`
slots: the first `min n |d|` elements are preserved, the rest is
uninitialized memory (modelled by `default`). -/
def reallocData {T : Type} [Inhabited T] (d : List T) (n : ℕ) : List T :=
  d.take n ++ List.replicate (n - d.length) default

/-- `nv_reserve_T`.  `allocOk` tells whether the `realloc` call (if
reached) succeeds. -/
def nv_reserve {T : Type} [Inhabited T] (sizeofT : ℕ) (allocOk : Bool)
    (vec : NanoVector T) (new_capacity : ℕ) : Err × NanoVector T :=
  if new_capacity ≤ vec.capacity then (.ok, vec)
  else if nanods_check_mul_overflow new_capacity sizeofT then (.overflow, vec)
  else if !allocOk then (.nomem, vec)
  else (.ok, { vec with data := reallocData vec.data new_capacity,
                        capacity := new_capacity })

/-- The capacity `nv_push_T` chooses when it must grow:
`vec->capacity == 0 ? 8 : vec->capacity * 2` (the doubling is `size_t`
arithmetic, hence modulo `2^64`). -/
def nv_push_growth (capacity : ℕ) : ℕ :=
  if capacity = 0 then 8 else capacity * 2 % (SIZE_MAX + 1)

/-- `nv_push_T`. -/
def nv_push {T : Type} [Inhabited T] (sizeofT : ℕ) (allocOk : Bool)
    (vec : NanoVector T) (value : T) : Err × NanoVector T :=
  if vec.size ≥ vec.capacity then
    let new_capacity := nv_push_growth vec.capacity
    if new_capacity < vec.capacity then (.overflow, vec)
    else
      match nv_reserve sizeofT allocOk vec new_capacity with
      | (.ok, v) => (.ok, { v with data := v.data.set v.size value, size := v.size + 1 })
      | (e, v) => (e, v)
  else
    (.ok, { vec with data := vec.data.set vec.size value, size := vec.size + 1 })

/-- `nv_get_T` (hardened build).  `outNull` says whether the `out`
pointer is null; the value written through `out` is the second
component. -/
def nv_get {T : Type} [Inhabited T] (outNull : Bool) (vec : NanoVector T)
    (index : ℕ) : Err × Option T :=
  if outNull then (.nullArg, none)
  else if index ≥ vec.size then (.bounds, none)
  else (.ok, some (vec.data.getD index default))

/-- `nv_set_T` (hardened build). -/
def nv_set {T : Type} (vec : NanoVector T) (index : ℕ) (value : T) :
    Err × NanoVector T :=
  if index ≥ vec.size then (.bounds, vec)
  else (.ok, { vec with data := vec.data.set index value })

/-- `nv_pop_T` (hardened build).  The code writes `*out` only when `out`
is non-null (`if (out) *out = ...`), then decrements `size`. -/
def nv_pop {T : Type} [Inhabited T] (outNull : Bool) (vec : NanoVector T) :
    Err × Option T × NanoVector T :=
  if vec.size = 0 then (.empty, none, vec)
  else
    (.ok,
     (if outNull then none else some (vec.data.getD (vec.size - 1) default)),
     { vec with size := vec.size - 1 })

/-- `nv_size_T` (non-null vector). -/
def nv_size {T : Type} (vec : NanoVector T) : ℕ := vec.size

/-- `nv_empty_T` (non-null vector). -/
def nv_empty {T : Type} (vec : NanoVector T) : Bool := vec.size = 0

/-- The logical contents of a vector: the populated prefix of its
buffer. -/
def nvContent {T : Type} (vec : NanoVector T) : List T := vec.data.take vec.size

/-- Well-formedness of a vector state: the buffer has exactly `capacity`
slots, at most `capacity` of them are populated, and the capacity fits in
`size_t`.  Holds for `nv_init` and is preserved by every operation. -/
def VecWF {T : Type} (vec : NanoVector T) : Prop :=
  vec.data.length = vec.capacity ∧ vec.size ≤ vec.capacity ∧
    vec.capacity ≤ SIZE_MAX

instance {T : Type} (vec : NanoVector T) : Decidable (VecWF vec) := by
  unfold VecWF; infer_instance

/-! ## Stack (`stack_impl.h`): composition over the vector. -/

/-- `ns_push_T` is `nv_push_T` on the same representation. -/
def ns_push {T : Type} [Inhabited T] (sizeofT : ℕ) (allocOk : Bool)
    (stack : NanoVector T) (value : T) : Err × NanoVector T :=
  nv_push sizeofT allocOk stack value

/-- `ns_pop_T` is `nv_pop_T` on the same representation. -/
def ns_pop {T : Type} [Inhabited T] (outNull : Bool) (stack : NanoVector T) :
    Err × Option T × NanoVector T :=
  nv_pop outNull stack

/-- `ns_peek_T` (hardened build): checks the `out` pointer, then
emptiness, then reads the top element without removing it. -/
def ns_peek {T : Type} [Inhabited T] (outNull : Bool) (stack : NanoVector T) :
    Err × Option T :=
  if outNull then (.nullArg, none)
  else if stack.size = 0 then (.empty, none)
  else (.ok, some (stack.data.getD (stack.size - 1) default))

/-! ## Singly linked list (`list_impl.h`).  The chain of heap nodes is
modelled by the list of node payloads from `head` to `tail`; the `size`
field is tracked separately, exactly as in the C struct. -/

/-- `NanoList_T`. -/
structure NanoList (T : Type) where
  nodes : List T
  size : ℕ
deriving DecidableEq, Repr

/-- `nl_init_T`. -/
def nl_init (T : Type) : NanoList T := ⟨[], 0⟩

/-- `nl_push_front_T`; `allocOk` tells whether the node allocation
succeeds. -/
def nl_push_front {T : Type} (allocOk : Bool) (list : NanoList T) (value : T) :
    Err × NanoList T :=
  if !allocOk then (.nomem, list)
  else (.ok, ⟨value :: list.nodes, list.size + 1⟩)

/-- `nl_push_back_T`. -/
def nl_push_back {T : Type} (allocOk : Bool) (list : NanoList T) (value : T) :
    Err × NanoList T :=
  if !allocOk then (.nomem, list)
  else (.ok, ⟨list.nodes ++ [value], list.size + 1⟩)

/-- `nl_pop_front_T` (hardened build): emptiness is checked on the `size`
field; `*out` is written only when `out` is non-null. -/
def nl_pop_front {T : Type} [Inhabited T] (outNull : Bool) (list : NanoList T) :
    Err × Option T × NanoList T :=
  if list.size = 0 then (.empty, none, list)
  else
    (.ok,
     (if outNull then none else some (list.nodes.headD default)),
     ⟨list.nodes.tail, list.size - 1⟩)

/-! ## Doubly linked list (`list2_impl.h`).  As for `NanoList`, the chain
is modelled by the payload sequence from `head` to `tail`; the `prev`
links are redundant in this functional view. -/

/-- `NanoList2_T`. -/
structure NanoList2 (T : Type) where
  nodes : List T
  size : ℕ
  flags : ℕ
deriving DecidableEq, Repr

/-- `nl2_init_T`. -/
def nl2_init (T : Type) : NanoList2 T := ⟨[], 0, 0⟩

/-- `nl2_push_front_T`. -/
def nl2_push_front {T : Type} (allocOk : Bool) (list : NanoList2 T) (value : T) :
    Err × NanoList2 T :=
  if !allocOk then (.nomem, list)
  else (.ok, { list with nodes := value :: list.nodes, size := list.size + 1 })

/-- `nl2_push_back_T`. -/
def nl2_push_back {T : Type} (allocOk : Bool) (list : NanoList2 T) (value : T) :
    Err × NanoList2 T :=
  if !allocOk then (.nomem, list)
  else (.ok, { list with nodes := list.nodes ++ [value], size := list.size + 1 })

/-- `nl2_pop_front_T` (hardened build). -/
def nl2_pop_front {T : Type} [Inhabited T] (outNull : Bool) (list : NanoList2 T) :
    Err × Option T × NanoList2 T :=
  if list.size = 0 then (.empty, none, list)
  else
    (.ok,
     (if outNull then none else some (list.nodes.headD default)),
     { list with nodes := list.nodes.tail, size := list.size - 1 })

/-- `nl2_pop_back_T` (hardened build): reads the tail node, unlinks it,
writes `*out` only when `out` is non-null. -/
def nl2_pop_back {T : Type} [Inhabited T] (outNull : Bool) (list : NanoList2 T) :
    Err × Option T × NanoList2 T :=
  if list.size = 0 then (.empty, none, list)
  else
    (.ok,
     (if outNull then none else some (list.nodes.getLastD default)),
     { list with nodes := list.nodes.dropLast, size := list.size - 1 })

/-! ## Ring buffer (`ring_impl.h`), generic over element type `T`; the
compile-time `SIZE` becomes the `capacity` argument of `nr_init`. -/

/-- `NanoRing_T_SIZE`. -/
structure NanoRing (T : Type) where
  data : List T
  head : ℕ
  tail : ℕ
  count : ℕ
  capacity : ℕ
  flags : ℕ
deriving DecidableEq, Repr

/-- `nr_init_T_SIZE` applied to a zeroed struct whose array has `SIZE`
slots (the array contents model uninitialized stack memory). -/
def nr_init (T : Type) [Inhabited T] (SIZE : ℕ) : NanoRing T :=
  ⟨List.replicate SIZE default, 0, 0, 0, SIZE, 0⟩

/-- `nr_write_T_SIZE` (hardened build: `NANODS_CHECK_FULL` compares
`count >= capacity`). -/
def nr_write {T : Type} (ring : NanoRing T) (value : T) : Err × NanoRing T :=
  if ring.count ≥ ring.capacity then (.full, ring)
  else
    (.ok, { ring with data := ring.data.set ring.tail value,
                      tail := (ring.tail + 1) % ring.capacity,
                      count := ring.count + 1 })

/-- `nr_read_T_SIZE` (hardened build, non-null `out`). -/
def nr_read {T : Type} [Inhabited T] (ring : NanoRing T) :
    Err × Option T × NanoRing T :=
  if ring.count = 0 then (.empty, none, ring)
  else
    (.ok, some (ring.data.getD ring.head default),
     { ring with head := (ring.head + 1) % ring.capacity,
                 count := ring.count - 1 })

/-- `nr_is_full_T_SIZE` (non-null ring). -/
def nr_is_full {T : Type} (ring : NanoRing T) : Bool :=
  ring.count = ring.capacity

/-- `nr_is_empty_T_SIZE` (non-null ring). -/
def nr_is_empty {T : Type} (ring : NanoRing T) : Bool :=
  ring.count = 0

/-- Ring well-formedness: array of exactly `capacity > 0` slots, at most
`capacity` of them occupied, read position in range, write position
determined by read position and occupancy.  Holds after `nr_init` (for
positive `SIZE`) and is preserved by `nr_write`/`nr_read`. -/
def RingWF {T : Type} (ring : NanoRing T) : Prop :=
  0 < ring.capacity ∧ ring.data.length = ring.capacity ∧
    ring.count ≤ ring.capacity ∧ ring.head < ring.capacity ∧
    ring.tail = (ring.head + ring.count) % ring.capacity

instance {T : Type} (ring : NanoRing T) : Decidable (RingWF ring) := by
  unfold RingWF; infer_instance

/-- The logical FIFO contents of a ring: the `count` occupied slots
starting at `head`, in cyclic order. -/
def ringList {T : Type} [Inhabited T] (ring : NanoRing T) : List T :=
  (List.range ring.count).map
    (fun i => ring.data.getD ((ring.head + i) % ring.capacity) default)

/-! ## Hash map (`map_impl.h`).  Keys are C strings, modelled as the byte
list before the NUL terminator; values are `void*`, modelled as `ℕ` with
`0` for the null pointer.  Each bucket's chain is the list of its entries
from chain head to chain end. -/

/-- A map key: the bytes of the C string (each `< 256` in any real
string; the hash applies the `(uint8_t)` cast, i.e. `% 256`, itself). -/
abbrev Key := List ℕ

/-- An entry of a bucket chain: owned key copy and the opaque value. -/
abbrev MapEntry := Key × ℕ

/-- `2^32`, the modulus of `uint32_t` arithmetic. -/
def U32 : ℕ := 2 ^ 32

/-- `nanods_fnv1a_hash_seeded` from `map_impl.h` (non-null key):
`hash = 2166136261u ^ seed`, then for each byte
`hash ^= byte; hash *= 16777619u` in `uint32_t` arithmetic. -/
def nanods_fnv1a_hash_seeded (key : Key) (seed : ℕ) : ℕ :=
  key.foldl (fun hash b => (hash ^^^ b % 256) * 16777619 % U32)
    ((2166136261 ^^^ seed) % U32)

/-- `NanoMap`. -/
structure NanoMap where
  buckets : List (List MapEntry)
  bucket_count : ℕ
  size : ℕ
  seed : ℕ
  flags : ℕ
deriving DecidableEq, Repr

/-- `nm_init` with the process-wide seed `gseed` as returned by
`nanods_get_seed()`. -/
def nm_init (gseed : ℕ) : NanoMap := ⟨[], 0, 0, gseed, 0⟩

/-- `nm_init_with_capacity` (non-null map); `allocOk` tells whether the
bucket-array `malloc` succeeds.  `sizeof(NanoMapEntry*) = 8` on the
modelled platform. -/
def nm_init_with_capacity (gseed : ℕ) (allocOk : Bool) (map : NanoMap)
    (bucket_count : ℕ) : Err × NanoMap :=
  let bc := if bucket_count = 0 then 16 else bucket_count
  if nanods_check_mul_overflow bc 8 then (.overflow, map)
  else if !allocOk then (.nomem, map)
  else (.ok, ⟨List.replicate bc [], bc, 0, gseed, 0⟩)

/-- The bucket index a key falls in:
`nanods_fnv1a_hash_seeded(key, map->seed) % map->bucket_count`
(meaningful only when `bucket_count ≠ 0`, as in the code). -/
def nm_bucket_idx (map : NanoMap) (key : Key) : ℕ :=
  nanods_fnv1a_hash_seeded key map.seed % map.bucket_count

/-- The chain walk inside `nm_find_entry`: first entry whose key compares
equal (`strcmp == 0`). -/
def chainFind (key : Key) : List MapEntry → Option MapEntry
  | [] => none
  | e :: es => if e.1 = key then some e else chainFind key es

/-- `nm_find_entry` (non-null map and key). -/
def nm_find_entry (map : NanoMap) (key : Key) : Option MapEntry :=
  if map.bucket_count = 0 then none
  else chainFind key (map.buckets.getD (nm_bucket_idx map key) [])

/-- `existing->value = value` on the first matching entry of a chain. -/
def chainSetValue (key : Key) (value : ℕ) : List MapEntry → List MapEntry
  | [] => []
  | e :: es => if e.1 = key then (e.1, value) :: es else e :: chainSetValue key value es

/-- The three allocation call sites `nm_set` can reach: the lazy bucket
array, the chain node, and the owned key copy. -/
structure SetAllocs where
  bucketsOk : Bool
  entryOk : Bool
  keyOk : Bool
deriving DecidableEq, Repr

/-- All allocations succeed. -/
def SetAllocs.all : SetAllocs := ⟨true, true, true⟩

/-- `nm_set` (non-null map and key). -/
def nm_set (gseed : ℕ) (ap : SetAllocs) (map : NanoMap) (key : Key)
    (value : ℕ) : Err × NanoMap :=
  let step1 : Err × NanoMap :=
    if map.bucket_count = 0 then nm_init_with_capacity gseed ap.bucketsOk map 16
    else (.ok, map)
  match step1 with
  | (.ok, m1) =>
      let idx := nm_bucket_idx m1 key
      match nm_find_entry m1 key with
      | some _ =>
          (.ok, { m1 with
                    buckets := m1.buckets.set idx
                      (chainSetValue key value (m1.buckets.getD idx [])) })
      | none =>
          if !ap.entryOk then (.nomem, m1)
          else if !ap.keyOk then (.nomem, m1)
          else (.ok, { m1 with
                         buckets := m1.buckets.set idx
                           ((key, value) :: m1.buckets.getD idx []),
                         size := m1.size + 1 })
  | (e, _) => (e, map)

/-- `nm_get` (non-null map and key): returns the stored `void*`, or the
null pointer (`0`) when the key is absent. -/
def nm_get (map : NanoMap) (key : Key) : ℕ :=
  match nm_find_entry map key with
  | some e => e.2
  | none => 0

/-- `nm_has` (non-null map and key). -/
def nm_has (map : NanoMap) (key : Key) : Bool :=
  (nm_find_entry map key).isSome

/-- The unlink walk inside `nm_remove`: drop the first matching entry,
`none` if no entry matches. -/
def chainRemove (key : Key) : List MapEntry → Option (List MapEntry)
  | [] => none
  | e :: es =>
      if e.1 = key then some es
      else match chainRemove key es with
           | some es' => some (e :: es')
           | none => none

/-- `nm_remove` (non-null map and key). -/
def nm_remove (map : NanoMap) (key : Key) : Err × NanoMap :=
  if map.bucket_count = 0 then (.notfound, map)
  else
    let idx := nm_bucket_idx map key
    match chainRemove key (map.buckets.getD idx []) with
    | some chain => (.ok, { map with buckets := map.buckets.set idx chain,
                                     size := map.size - 1 })
    | none => (.notfound, map)

/-- `nm_size` (non-null map). -/
def nm_size (map : NanoMap) : ℕ := map.size

/-- All entries of the map, bucket by bucket. -/
def allEntries (map : NanoMap) : List MapEntry := map.buckets.flatten

/-- All keys stored in the map. -/
def allKeys (map : NanoMap) : List Key := (allEntries map).map Prod.fst

/-- Map well-formedness: the bucket array has `bucket_count` slots,
`size` counts the chain nodes, keys are pairwise distinct, and every
entry sits in the bucket its hash selects.  Holds for `nm_init` and is
preserved by `nm_set`/`nm_remove`. -/
def MapWF (map : NanoMap) : Prop :=
  map.buckets.length = map.bucket_count ∧
  map.size = (allEntries map).length ∧
  (allKeys map).Nodup ∧
  ∀ i < map.buckets.length, ∀ e ∈ map.buckets.getD i [], nm_bucket_idx map e.1 = i

instance (map : NanoMap) : Decidable (MapWF map) := by
  unfold MapWF; infer_instance

/-- Operations on one map, for whole-history statements.  Each `set`
carries the outcomes of its allocation call sites. -/
inductive MapOp where
  | set (ap : SetAllocs) (key : Key) (value : ℕ)
  | remove (key : Key)
deriving DecidableEq, Repr

/-- Run a sequence of map operations (discarding the error codes). -/
def runMapOps (gseed : ℕ) (map : NanoMap) : List MapOp → NanoMap
  | [] => map
  | .set ap k v :: ops => runMapOps gseed (nm_set gseed ap map k v).2 ops
  | .remove k :: ops => runMapOps gseed (nm_remove map k).2 ops

/-- The keys a history of operations ever passed to `nm_set`. -/
def setKeys : List MapOp → List Key
  | [] => []
  | .set _ k _ :: ops => k :: setKeys ops
  | .remove _ :: ops => setKeys ops

/-! ## `nv_map` / `nv_filter` (`vector_impl.h`).  The loop is embedded
with the loop counter explicit; `orc i` tells whether the allocation the
`i`-th iteration's `nv_push` may perform succeeds.  On a push failure the
code frees and resets the output vector and returns the error. -/

/-- The loop of `nv_map_T` (`for i = 0 .. vec->size-1`), embedded as
structural recursion over the list of remaining loop indices; `out` is
the output vector built so far.  On a push failure the code frees and
resets `out` and returns the error. -/
def nvMapGo {T : Type} [Inhabited T] (sizeofT : ℕ) (orc : ℕ → Bool)
    (func : T → T) (vec : NanoVector T) :
    List ℕ → NanoVector T → Err × NanoVector T
  | [], out => (.ok, out)
  | i :: is, out =>
      match nv_push sizeofT (orc i) out (func (vec.data.getD i default)) with
      | (.ok, out') => nvMapGo sizeofT orc func vec is out'
      | (e, _) => (e, nv_init T)

/-- `nv_map_T` (non-null arguments): initializes `out`, then pushes
`func` of each element, for the indices `0, 1, ..., size-1` in order. -/
def nv_map {T : Type} [Inhabited T] (sizeofT : ℕ) (orc : ℕ → Bool)
    (vec : NanoVector T) (func : T → T) : Err × NanoVector T :=
  nvMapGo sizeofT orc func vec (List.range vec.size) (nv_init T)

/-- The loop of `nv_filter_T`, embedded like `nvMapGo`. -/
def nvFilterGo {T : Type} [Inhabited T] (sizeofT : ℕ) (orc : ℕ → Bool)
    (pred : T → Bool) (vec : NanoVector T) :
    List ℕ → NanoVector T → Err × NanoVector T
  | [], out => (.ok, out)
  | i :: is, out =>
      if pred (vec.data.getD i default) then
        match nv_push sizeofT (orc i) out (vec.data.getD i default) with
        | (.ok, out') => nvFilterGo sizeofT orc pred vec is out'
        | (e, _) => (e, nv_init T)
      else nvFilterGo sizeofT orc pred vec is out

/-- `nv_filter_T` (non-null arguments). -/
def nv_filter {T : Type} [Inhabited T] (sizeofT : ℕ) (orc : ℕ → Bool)
    (vec : NanoVector T) (pred : T → Bool) : Err × NanoVector T :=
  nvFilterGo sizeofT orc pred vec (List.range vec.size) (nv_init T)

/-! ## Push/pop histories on one vector, for the sequence claims. -/

/-- One step of a push/pop history; a push records whether the
allocation its growth step may need succeeds. -/
inductive VOp (T : Type) where
  | push (allocOk : Bool) (value : T)
  | pop
deriving DecidableEq, Repr

/-- One step: a pop passes a non-null `out`. -/
def nvStep {T : Type} [Inhabited T] (sizeofT : ℕ) (vec : NanoVector T) :
    VOp T → Err × Option T × NanoVector T
  | .push ok v => match nv_push sizeofT ok vec v with
                  | (e, vec') => (e, none, vec')
  | .pop => nv_pop false vec

/-- Run a history, recording each operation's error code. -/
def nvRunTrace {T : Type} [Inhabited T] (sizeofT : ℕ) :
    NanoVector T → List (VOp T) → NanoVector T × List (VOp T × Err)
  | vec, [] => (vec, [])
  | vec, op :: ops =>
      let r := nvStep sizeofT vec op
      let rest := nvRunTrace sizeofT r.2.2 ops
      (rest.1, (op, r.1) :: rest.2)

/-- Number of pushes that returned `NANODS_OK` in a trace. -/
def succPushes {T : Type} : List (VOp T × Err) → ℕ
  | [] => 0
  | (.push _ _, .ok) :: rest => succPushes rest + 1
  | _ :: rest => succPushes rest

/-- Number of pops that returned `NANODS_OK` in a trace. -/
def succPops {T : Type} : List (VOp T × Err) → ℕ
  | [] => 0
  | (.pop, .ok) :: rest => succPops rest + 1
  | _ :: rest => succPops rest

/-! ## Mode-parametric operations for the build-mode comparison claim.
`hard = true` is the `NANODS_HARD_SAFETY` build; `hard = false` is the
debug build, in which a failed `NANODS_CHECK_*` is a failed `assert`,
modelled by the outcome `none`. -/

/-- `nv_pop_T` in either build mode.  The `out` pointer is never
null-checked by the code in either mode (`if (out) *out = ...`). -/
def nv_popM {T : Type} [Inhabited T] (hard : Bool) (outNull : Bool)
    (vec : NanoVector T) : Option (Err × Option T × NanoVector T) :=
  if vec.size = 0 then
    if hard then some (.empty, none, vec) else none
  else
    some (.ok,
      (if outNull then none else some (vec.data.getD (vec.size - 1) default)),
      { vec with size := vec.size - 1 })

/-- `nl_pop_front_T` in either build mode. -/
def nl_pop_frontM {T : Type} [Inhabited T] (hard : Bool) (outNull : Bool)
    (list : NanoList T) : Option (Err × Option T × NanoList T) :=
  if list.size = 0 then
    if hard then some (.empty, none, list) else none
  else
    some (.ok,
      (if outNull then none else some (list.nodes.headD default)),
      (⟨list.nodes.tail, list.size - 1⟩ : NanoList T))

/-- `nl2_pop_back_T` in either build mode. -/
def nl2_pop_backM {T : Type} [Inhabited T] (hard : Bool) (outNull : Bool)
    (list : NanoList2 T) : Option (Err × Option T × NanoList2 T) :=
  if list.size = 0 then
    if hard then some (.empty, none, list) else none
  else
    some (.ok,
      (if outNull then none else some (list.nodes.getLastD default)),
      { list with nodes := list.nodes.dropLast, size := list.size - 1 })

/-- `nv_get_T` in either build mode: `NANODS_CHECK_NULL(out, ...)` runs
before the bounds check, so a null `out` is rejected (error code in the
hardened build, failed assertion in the debug build). -/
def nv_getM {T : Type} [Inhabited T] (hard : Bool) (outNull : Bool)
    (vec : NanoVector T) (index : ℕ) : Option (Err × Option T) :=
  if outNull then
    if hard then some (.nullArg, none) else none
  else if index ≥ vec.size then
    if hard then some (.bounds, none) else none
  else some (.ok, some (vec.data.getD index default))

/-- `ns_peek_T` in either build mode. -/
def ns_peekM {T : Type} [Inhabited T] (hard : Bool) (outNull : Bool)
    (stack : NanoVector T) : Option (Err × Option T) :=
  if outNull then
    if hard then some (.nullArg, none) else none
  else if stack.size = 0 then
    if hard then some (.empty, none) else none
  else some (.ok, some (stack.data.getD (stack.size - 1) default))

/-! ## Ring histories, for the FIFO claim. -/

/-- Write a list of values in order (`nr_write` per element). -/
def nrWriteAll {T : Type} (ring : NanoRing T) : List T → NanoRing T
  | [] => ring
  | v :: vs => nrWriteAll (nr_write ring v).2 vs

/-- Read `n` times, collecting the successfully read values; stops on
the first failed read. -/
def nrReadAll {T : Type} [Inhabited T] (ring : NanoRing T) : ℕ → NanoRing T × List T
  | 0 => (ring, [])
  | n + 1 =>
      match nr_read ring with
      | (.ok, some v, ring') =>
          let p := nrReadAll ring' n
          (p.1, v :: p.2)
      | (_, _, ring') => (ring', [])

/-! ## Helper lemmas: lists, checked arithmetic. -/

theorem check_mul_overflow_iff (a b : ℕ) :
    nanods_check_mul_overflow a b = true ↔ SIZE_MAX < a * b := by
  unfold nanods_check_mul_overflow
  rcases Nat.eq_zero_or_pos a with h | h
  · subst h; simp
  · simp only [Bool.and_eq_true, decide_eq_true_eq]
    constructor
    · rintro ⟨-, h2⟩
      have h3 := (Nat.div_lt_iff_lt_mul h).mp h2
      rw [Nat.mul_comm] at h3
      exact h3
    · intro h2
      refine ⟨h, (Nat.div_lt_iff_lt_mul h).mpr ?_⟩
      rw [Nat.mul_comm]
      exact h2

theorem take_set_of_le {T : Type} (l : List T) (n m : ℕ) (a : T) (hmn : m ≤ n) :
    (l.set n a).take m = l.take m := by
  apply List.ext_getElem?
  intro i
  simp only [List.getElem?_take]
  split
  · exact List.getElem?_set_ne (by omega)
  · rfl

theorem take_set_succ {T : Type} (l : List T) (n : ℕ) (a : T) (h : n < l.length) :
    (l.set n a).take (n + 1) = l.take n ++ [a] := by
  rw [List.take_succ, take_set_of_le l n n a le_rfl,
    List.getElem?_set_eq_of_lt a h]
  rfl

theorem getD_of_lt {T : Type} (l : List T) (n : ℕ) (d : T) (h : n < l.length) :
    l.getD n d = l[n] := by
  rw [List.getD_eq_getElem?_getD, List.getElem?_eq_getElem h]
  rfl

theorem getLast?_take_of_lt {T : Type} [Inhabited T] (l : List T) (n : ℕ)
    (hn : n ≠ 0) (h : n ≤ l.length) :
    (l.take n).getLast? = some (l.getD (n - 1) default) := by
  rw [List.getLast?_take, if_neg hn, List.getElem?_eq_getElem (by omega),
    getD_of_lt _ _ _ (by omega)]
  rfl

theorem dropLast_take {T : Type} (l : List T) (n : ℕ) (h : n ≤ l.length) :
    (l.take n).dropLast = l.take (n - 1) := by
  rw [List.dropLast_eq_take, List.take_take, List.length_take]
  congr 1
  omega

/-! ## Vector step lemmas. -/

theorem nv_init_wf (T : Type) : VecWF (nv_init T) := by
  constructor <;> simp [nv_init, SIZE_MAX]

/-- The chosen growth capacity never equals the current capacity (for a
`size_t` capacity), so a successful growth step really reallocates. -/
theorem nv_push_growth_ne (capacity : ℕ) (hcap : capacity ≤ SIZE_MAX) :
    nv_push_growth capacity ≠ capacity := by
  unfold nv_push_growth SIZE_MAX at *
  split
  · omega
  · intro h
    rcases Nat.lt_or_ge (capacity * 2) (2 ^ 64) with h2 | h2
    · rw [Nat.mod_eq_of_lt (by omega)] at h; omega
    · have hm : capacity * 2 % (2 ^ 64 - 1 + 1) = capacity * 2 - 2 ^ 64 := by
        have h64 : (2:ℕ) ^ 64 - 1 + 1 = 2 ^ 64 := by norm_num
        rw [h64, Nat.mod_eq_sub_mod h2, Nat.mod_eq_of_lt (by omega)]
      omega

theorem nv_push_growth_le (capacity : ℕ) :
    nv_push_growth capacity ≤ SIZE_MAX := by
  unfold nv_push_growth SIZE_MAX
  split
  · norm_num
  · have := Nat.mod_lt (capacity * 2) (y := 2 ^ 64 - 1 + 1) (by norm_num)
    omega

/-- Characterization of one `nv_push` on a well-formed vector: on
success the logical contents gain `value` at the end (and the size grows
by one, well-formedness is preserved); on failure the vector is returned
unchanged. -/
theorem nv_push_cases {T : Type} [Inhabited T] (sizeofT : ℕ) (allocOk : Bool)
    (vec : NanoVector T) (value : T) (hwf : VecWF vec) :
    ((nv_push sizeofT allocOk vec value).1 = .ok →
      VecWF (nv_push sizeofT allocOk vec value).2 ∧
      (nv_push sizeofT allocOk vec value).2.size = vec.size + 1 ∧
      nvContent (nv_push sizeofT allocOk vec value).2 = nvContent vec ++ [value]) ∧
    ((nv_push sizeofT allocOk vec value).1 ≠ .ok →
      (nv_push sizeofT allocOk vec value).2 = vec) := by
  obtain ⟨hlen, hsize, hcap⟩ := hwf
  by_cases hfull : vec.size ≥ vec.capacity
  · -- growth path; here size = capacity
    have hsc : vec.size = vec.capacity := le_antisymm hsize hfull
    by_cases hwrap : nv_push_growth vec.capacity < vec.capacity
    · constructor
      · intro h
        exfalso
        rw [nv_push, if_pos hfull, if_pos hwrap] at h
        exact Err.noConfusion h
      · intro _
        rw [nv_push, if_pos hfull, if_pos hwrap]
    · have hgt : vec.capacity < nv_push_growth vec.capacity :=
        lt_of_le_of_ne (le_of_not_lt hwrap)
          (Ne.symm (nv_push_growth_ne vec.capacity hcap))
      rw [nv_push, if_pos hfull, if_neg hwrap]
      rw [nv_reserve, if_neg (by omega)]
      by_cases hovf : nanods_check_mul_overflow (nv_push_growth vec.capacity) sizeofT
      · rw [if_pos hovf]
        exact ⟨fun h => absurd h (by simp), fun _ => rfl⟩
      · rw [if_neg (by simp [hovf])]
        cases allocOk with
        | false => exact ⟨fun h => absurd h (by simp), fun _ => rfl⟩
        | true =>
            simp only [Bool.not_true, Bool.false_eq_true, if_false, if_neg]
            refine ⟨fun _ => ?_, fun h => absurd rfl h⟩
            have hdata : reallocData vec.data (nv_push_growth vec.capacity)
                = vec.data ++ List.replicate (nv_push_growth vec.capacity - vec.capacity) default := by
              unfold reallocData
              rw [List.take_of_length_le (by omega), hlen]
            have hlen' : (reallocData vec.data (nv_push_growth vec.capacity)).length
                = nv_push_growth vec.capacity := by
              rw [hdata]
              simp only [List.length_append, List.length_replicate, hlen]
              omega
            refine ⟨⟨by simpa using hlen', by simp; omega,
              by simpa using nv_push_growth_le vec.capacity⟩, by simp, ?_⟩
            simp only [nvContent]
            rw [take_set_succ _ _ _ (by omega)]
            congr 1
            rw [hdata, hsc, ← hlen, List.take_left, List.take_of_length_le le_rfl]
  · -- fast path
    rw [nv_push, if_neg hfull]
    refine ⟨fun _ => ⟨⟨by simpa using hlen, by simp; omega, hcap⟩, by simp, ?_⟩,
      fun h => absurd rfl h⟩
    simp only [nvContent]
    exact take_set_succ _ _ _ (by omega)

/-- Characterization of one `nv_pop` (non-null `out`) on a well-formed
vector: on a non-empty vector it returns the last logical element and
drops it; on an empty vector it fails and changes nothing. -/
theorem nv_pop_cases {T : Type} [Inhabited T] (vec : NanoVector T)
    (hwf : VecWF vec) :
    (vec.size = 0 → nv_pop false vec = (.empty, none, vec)) ∧
    (vec.size ≠ 0 →
      nv_pop false vec =
        (.ok, (nvContent vec).getLast?,
          { vec with size := vec.size - 1 }) ∧
      nvContent (nv_pop false vec).2.2 = (nvContent vec).dropLast ∧
      VecWF (nv_pop false vec).2.2) := by
  obtain ⟨hlen, hsize, hcap⟩ := hwf
  constructor
  · intro h
    rw [nv_pop, if_pos h]
  · intro h
    have h1 : vec.size - 1 < vec.data.length := by omega
    have heq : nv_pop false vec =
        (.ok, (nvContent vec).getLast?, { vec with size := vec.size - 1 }) := by
      rw [nv_pop, if_neg h]
      simp only [Bool.false_eq_true, if_false, nvContent]
      rw [getLast?_take_of_lt vec.data vec.size h (by omega)]
    refine ⟨heq, ?_, ?_⟩
    · rw [heq]
      simp only [nvContent]
      exact (dropLast_take vec.data vec.size (by omega)).symm
    · rw [heq]
      exact ⟨hlen, by show vec.size - 1 ≤ vec.capacity; omega, hcap⟩

theorem nvRunTrace_cons {T : Type} [Inhabited T] (sizeofT : ℕ)
    (vec : NanoVector T) (op : VOp T) (ops : List (VOp T)) :
    nvRunTrace sizeofT vec (op :: ops) =
      ((nvRunTrace sizeofT (nvStep sizeofT vec op).2.2 ops).1,
       (op, (nvStep sizeofT vec op).1)
         :: (nvRunTrace sizeofT (nvStep sizeofT vec op).2.2 ops).2) := rfl

/-- Size bookkeeping over a whole history: final size plus successful
pops equals initial size plus successful pushes. -/
theorem nvRunTrace_size {T : Type} [Inhabited T] (sizeofT : ℕ)
    (ops : List (VOp T)) (vec : NanoVector T) (hwf : VecWF vec) :
    (nvRunTrace sizeofT vec ops).1.size
      + succPops (nvRunTrace sizeofT vec ops).2
      = vec.size + succPushes (nvRunTrace sizeofT vec ops).2 := by
  induction ops generalizing vec with
  | nil => simp [nvRunTrace, succPushes, succPops]
  | cons op ops ih =>
      cases op with
      | push ok v =>
          have h1 : (nvStep sizeofT vec (VOp.push ok v)).1
              = (nv_push sizeofT ok vec v).1 := by
            simp [nvStep]
          have h2 : (nvStep sizeofT vec (VOp.push ok v)).2.2
              = (nv_push sizeofT ok vec v).2 := by
            simp [nvStep]
          rw [nvRunTrace_cons, h1, h2]
          by_cases he : (nv_push sizeofT ok vec v).1 = Err.ok
          · have hc := (nv_push_cases sizeofT ok vec v hwf).1 he
            have hih := ih (nv_push sizeofT ok vec v).2 hc.1
            rw [he]
            simp only [succPushes, succPops]
            omega
          · have hunch := (nv_push_cases sizeofT ok vec v hwf).2 he
            have hih := ih (nv_push sizeofT ok vec v).2 (hunch.symm ▸ hwf)
            rw [hunch] at hih
            rw [hunch]
            cases hee : (nv_push sizeofT ok vec v).1
            all_goals first
              | exact absurd hee he
              | (simp only [succPushes, succPops]; omega)
      | pop =>
          have h1 : (nvStep sizeofT vec VOp.pop) = nv_pop false vec := rfl
          rw [nvRunTrace_cons, h1]
          by_cases hz : vec.size = 0
          · have heq := (nv_pop_cases vec hwf).1 hz
            have hp1 : (nv_pop false vec).1 = Err.empty := by rw [heq]
            have hp2 : (nv_pop false vec).2.2 = vec := by rw [heq]
            rw [hp1, hp2]
            have hih := ih vec hwf
            simp only [succPushes, succPops]
            omega
          · obtain ⟨heq, -, hwf'⟩ := (nv_pop_cases vec hwf).2 hz
            have hp1 : (nv_pop false vec).1 = Err.ok := by rw [heq]
            have hp2 : (nv_pop false vec).2.2
                = { vec with size := vec.size - 1 } := by rw [heq]
            rw [hp1, hp2]
            have hwf'' : VecWF { vec with size := vec.size - 1 } := by
              rw [hp2] at hwf'
              exact hwf'
            have hih := ih { vec with size := vec.size - 1 } hwf''
            have hsz : ({ vec with size := vec.size - 1 } : NanoVector T).size
                = vec.size - 1 := rfl
            simp only [succPushes, succPops]
            omega

/-- **C1**: for every sequence of push/pop operations starting from an
initialized empty `Vector<T>` (equivalently a `Stack<T>`: `ns_push` and
`ns_pop` delegate to `nv_push` and `nv_pop` unchanged), the resulting
size equals the number of successful pushes minus the number of
successful pops; moreover, on any well-formed vector a successful push
appends its value to the logical contents, a failed push leaves the
vector unchanged, and a successful pop removes and returns the last
element of the logical contents — i.e. the most recently pushed element
not yet popped (LIFO). -/
theorem vector_stack_push_pop_lifo {T : Type} [Inhabited T] (sizeofT : ℕ)
    (ops : List (VOp T)) (vec : NanoVector T) (allocOk : Bool) (v : T)
    (hwf : VecWF vec) :
    ((nvRunTrace sizeofT (nv_init T) ops).1.size
       + succPops (nvRunTrace sizeofT (nv_init T) ops).2
       = succPushes (nvRunTrace sizeofT (nv_init T) ops).2) ∧
    ((nv_push sizeofT allocOk vec v).1 = .ok →
       nvContent (nv_push sizeofT allocOk vec v).2 = nvContent vec ++ [v]) ∧
    ((nv_push sizeofT allocOk vec v).1 ≠ .ok →
       (nv_push sizeofT allocOk vec v).2 = vec) ∧
    (vec.size ≠ 0 →
       nv_pop false vec
         = (.ok, (nvContent vec).getLast?, { vec with size := vec.size - 1 }) ∧
       nvContent (nv_pop false vec).2.2 = (nvContent vec).dropLast) ∧
    (vec.size = 0 → nv_pop false vec = (.empty, none, vec)) ∧
    (∀ (ok : Bool) (s : NanoVector T) (x : T),
       ns_push sizeofT ok s x = nv_push sizeofT ok s x) ∧
    (∀ (o : Bool) (s : NanoVector T), ns_pop o s = nv_pop o s) := by
  refine ⟨?_, fun h => ((nv_push_cases sizeofT allocOk vec v hwf).1 h).2.2,
    (nv_push_cases sizeofT allocOk vec v hwf).2,
    fun h => ⟨((nv_pop_cases vec hwf).2 h).1, ((nv_pop_cases vec hwf).2 h).2.1⟩,
    (nv_pop_cases vec hwf).1, fun _ _ _ => rfl, fun _ _ => rfl⟩
  have := nvRunTrace_size sizeofT ops (nv_init T) (nv_init_wf T)
  simpa [nv_init] using this

/-- Witness for C1 at concrete inputs. -/
theorem vector_stack_push_pop_lifo_witness :
    ((nvRunTrace 4 (nv_init ℕ)
        [VOp.push true 1, VOp.push true 2, VOp.pop]).1.size
       + succPops (nvRunTrace 4 (nv_init ℕ)
           [VOp.push true 1, VOp.push true 2, VOp.pop]).2
       = succPushes (nvRunTrace 4 (nv_init ℕ)
           [VOp.push true 1, VOp.push true 2, VOp.pop]).2) ∧
    nvContent (nv_push 4 true (⟨[5], 1, 1⟩ : NanoVector ℕ) 7).2 = [5, 7] ∧
    nv_pop false (⟨[5, 7, 0], 2, 3⟩ : NanoVector ℕ)
      = (.ok, some 7, ⟨[5, 7, 0], 1, 3⟩) := by
  have h := vector_stack_push_pop_lifo 4
    [VOp.push true 1, VOp.push true 2, VOp.pop]
    (⟨[5], 1, 1⟩ : NanoVector ℕ) true 7 (by decide)
  have h2 := vector_stack_push_pop_lifo 4 ([] : List (VOp ℕ))
    (⟨[5, 7, 0], 2, 3⟩ : NanoVector ℕ) true 7 (by decide)
  refine ⟨h.1, ?_, ?_⟩
  · rw [h.2.1 (by decide)]; rfl
  · rw [(h2.2.2.2.1 (by decide)).1]; rfl

/-- **C2**: `nv_reserve` is a no-op returning Ok when the requested
capacity does not exceed the current one; it fails with
ArithmeticOverflow when the requested byte size `n * sizeof(T)` exceeds
`SIZE_MAX`, and with OutOfMemory when the reallocation fails; in every
failure case (and in the no-op case) the vector — size, capacity, data,
elements — is returned unchanged. -/
theorem nv_reserve_spec {T : Type} [Inhabited T] (sizeofT : ℕ)
    (allocOk : Bool) (vec : NanoVector T) (n : ℕ) :
    (n ≤ vec.capacity → nv_reserve sizeofT allocOk vec n = (.ok, vec)) ∧
    (vec.capacity < n → SIZE_MAX < n * sizeofT →
      nv_reserve sizeofT allocOk vec n = (.overflow, vec)) ∧
    (vec.capacity < n → n * sizeofT ≤ SIZE_MAX → allocOk = false →
      nv_reserve sizeofT allocOk vec n = (.nomem, vec)) ∧
    (∀ e vec', nv_reserve sizeofT allocOk vec n = (e, vec') → e ≠ .ok →
      vec' = vec) := by
  refine ⟨fun h => ?_, fun h1 h2 => ?_, fun h1 h2 h3 => ?_,
    fun e vec' heq hne => ?_⟩
  · rw [nv_reserve, if_pos h]
  · rw [nv_reserve, if_neg (by omega),
      if_pos ((check_mul_overflow_iff n sizeofT).mpr h2)]
  · have hovf : nanods_check_mul_overflow n sizeofT = false := by
      rw [← Bool.not_eq_true, check_mul_overflow_iff]
      omega
    rw [nv_reserve, if_neg (by omega), if_neg (by simp [hovf]), h3,
      if_pos (by rfl)]
  · rw [nv_reserve] at heq
    split_ifs at heq <;> simp_all

/-- Witness for C2 at concrete inputs. -/
theorem nv_reserve_spec_witness :
    nv_reserve 4 true (nv_init ℕ) 0 = (.ok, nv_init ℕ) ∧
    nv_reserve 4 true (nv_init ℕ) (2 ^ 63) = (.overflow, nv_init ℕ) ∧
    nv_reserve 4 false (nv_init ℕ) 4 = (.nomem, nv_init ℕ) := by
  refine ⟨?_, ?_, ?_⟩
  · exact (nv_reserve_spec 4 true (nv_init ℕ) 0).1 (by decide)
  · exact (nv_reserve_spec 4 true (nv_init ℕ) (2 ^ 63)).2.1 (by decide)
      (by norm_num [SIZE_MAX])
  · exact (nv_reserve_spec 4 false (nv_init ℕ) 4).2.2.1 (by decide)
      (by norm_num [SIZE_MAX]) rfl

/-- **C7**: when `nv_push` finds the vector full (`size == capacity`),
the growth capacity is 8 for a zero capacity and twice the old capacity
otherwise (`size_t` doubling); if the doubled value wraps below the
prior capacity the push returns ArithmeticOverflow with the vector
unchanged, and otherwise (no multiply overflow, allocation succeeding)
the push succeeds and the new capacity is exactly the chosen growth
capacity. -/
theorem nv_push_growth_policy {T : Type} [Inhabited T] (sizeofT : ℕ)
    (allocOk : Bool) (vec : NanoVector T) (v : T)
    (hfull : vec.size = vec.capacity) (hcap : vec.capacity ≤ SIZE_MAX) :
    (vec.capacity = 0 → nv_push_growth vec.capacity = 8) ∧
    (vec.capacity ≠ 0 →
      nv_push_growth vec.capacity = vec.capacity * 2 % 2 ^ 64) ∧
    (nv_push_growth vec.capacity < vec.capacity →
      nv_push sizeofT allocOk vec v = (.overflow, vec)) ∧
    (¬ nv_push_growth vec.capacity < vec.capacity →
      nanods_check_mul_overflow (nv_push_growth vec.capacity) sizeofT = false →
      allocOk = true →
      (nv_push sizeofT allocOk vec v).1 = .ok ∧
      (nv_push sizeofT allocOk vec v).2.capacity
        = nv_push_growth vec.capacity) := by
  have hge : vec.size ≥ vec.capacity := hfull.ge
  refine ⟨fun h => by simp [nv_push_growth, h],
    fun h => by simp only [nv_push_growth, if_neg h]; norm_num [SIZE_MAX],
    fun hwrap => ?_, fun hnw hovf hok => ?_⟩
  · rw [nv_push, if_pos hge, if_pos hwrap]
  · have hgt : vec.capacity < nv_push_growth vec.capacity :=
      lt_of_le_of_ne (le_of_not_lt hnw)
        (Ne.symm (nv_push_growth_ne vec.capacity hcap))
    subst hok
    rw [nv_push, if_pos hge, if_neg hnw, nv_reserve, if_neg (by omega),
      if_neg (by simp [hovf]), if_neg (by simp)]
    exact ⟨rfl, rfl⟩

/-- Witness for C7 at concrete inputs: a full vector of capacity `2^63`
(whose doubling wraps to 0) is rejected with ArithmeticOverflow and left
unchanged, and a push on the empty initialized vector grows it to
capacity 8. -/
theorem nv_push_growth_policy_witness :
    nv_push 4 true (⟨List.replicate (2 ^ 63) 0, 2 ^ 63, 2 ^ 63⟩ : NanoVector ℕ) 1
      = (.overflow, ⟨List.replicate (2 ^ 63) 0, 2 ^ 63, 2 ^ 63⟩) ∧
    (nv_push 4 true (nv_init ℕ) 1).1 = .ok ∧
    (nv_push 4 true (nv_init ℕ) 1).2.capacity = 8 := by
  refine ⟨?_, ?_⟩
  · exact (nv_push_growth_policy 4 true _ 1 rfl (by decide)).2.2.1
      (by decide)
  · have h := (nv_push_growth_policy 4 true (nv_init ℕ) 1 rfl
      (by decide)).2.2.2 (by decide) (by decide) rfl
    exact ⟨h.1, by rw [h.2]; rfl⟩

/-- **C10**: pop operations accept a null `out` pointer: on a non-empty
container, `nv_pop` / `nl_pop_front` / `nl2_pop_back` called with a null
`out` return Ok, remove the element and discard its value, in both build
modes (the code never null-checks `out` there: `if (out) *out = ...`);
the hardened-mode embedding agrees with `nv_pop`.  By contrast `nv_get`
and `ns_peek` reject a null `out` (`NANODS_CHECK_NULL(out, ...)`):
error code `NANODS_ERR_NULL` in the hardened build, failed assertion
(outcome `none`) in the debug build. -/
theorem pop_accepts_null_out {T : Type} [Inhabited T]
    (vec : NanoVector T) (list : NanoList T) (list2 : NanoList2 T)
    (i : ℕ) (hard : Bool)
    (hv : vec.size ≠ 0) (hl : list.size ≠ 0) (hl2 : list2.size ≠ 0) :
    (nv_popM hard true vec
       = some (.ok, none, { vec with size := vec.size - 1 })) ∧
    (nl_pop_frontM hard true list
       = some (.ok, none, ⟨list.nodes.tail, list.size - 1⟩)) ∧
    (nl2_pop_backM hard true list2
       = some (.ok, none, { list2 with nodes := list2.nodes.dropLast,
                                       size := list2.size - 1 })) ∧
    (∀ (o : Bool) (w : NanoVector T), nv_popM true o w = some (nv_pop o w)) ∧
    (nv_getM true true vec i = some (.nullArg, none)) ∧
    (nv_getM false true vec i = none) ∧
    (ns_peekM true true vec = some (.nullArg, none)) ∧
    (ns_peekM false true vec = none) := by
  refine ⟨?_, ?_, ?_, ?_, rfl, rfl, rfl, rfl⟩
  · rw [nv_popM, if_neg hv]
    rfl
  · rw [nl_pop_frontM, if_neg hl]
    rfl
  · rw [nl2_pop_backM, if_neg hl2]
    rfl
  · intro o w
    by_cases hz : w.size = 0
    · rw [nv_popM, if_pos hz, nv_pop, if_pos hz]
      rfl
    · rw [nv_popM, if_neg hz, nv_pop, if_neg hz]

/-- Witness for C10 at concrete inputs (debug build mode). -/
theorem pop_accepts_null_out_witness :
    nv_popM false true (⟨[3], 1, 1⟩ : NanoVector ℕ)
      = some (.ok, none, ⟨[3], 0, 1⟩) ∧
    nl_pop_frontM false true (⟨[4], 1⟩ : NanoList ℕ)
      = some (.ok, none, ⟨[], 0⟩) ∧
    nl2_pop_backM false true (⟨[5], 1, 0⟩ : NanoList2 ℕ)
      = some (.ok, none, ⟨[], 0, 0⟩) ∧
    nv_getM false true (⟨[3], 1, 1⟩ : NanoVector ℕ) 0 = none := by
  have h := pop_accepts_null_out (⟨[3], 1, 1⟩ : NanoVector ℕ)
    (⟨[4], 1⟩ : NanoList ℕ) (⟨[5], 1, 0⟩ : NanoList2 ℕ) 0 false
    (by decide) (by decide) (by decide)
  exact ⟨h.1, h.2.1, h.2.2.1, h.2.2.2.2.2.1⟩

/-! ## Ring buffer lemmas. -/

theorem getD_set_ne {T : Type} (l : List T) (i j : ℕ) (a d : T) (h : i ≠ j) :
    (l.set i a).getD j d = l.getD j d := by
  rw [List.getD_eq_getElem?_getD, List.getD_eq_getElem?_getD,
    List.getElem?_set_ne h]

theorem getD_set_self {T : Type} (l : List T) (i : ℕ) (a d : T)
    (h : i < l.length) :
    (l.set i a).getD i d = a := by
  rw [List.getD_eq_getElem?_getD, List.getElem?_set_eq_of_lt a h]
  rfl

/-- Two in-range cyclic offsets from the same origin hit the same slot
only if they are equal. -/
theorem mod_add_left_cancel {cap h i j : ℕ} (hi : i < cap) (hj : j < cap)
    (heq : (h + i) % cap = (h + j) % cap) : i = j := by
  have hm : i ≡ j [MOD cap] := Nat.ModEq.add_left_cancel' h heq
  have := hm.eq_of_lt_of_lt hi hj
  exact this

theorem nr_init_wf (T : Type) [Inhabited T] (N : ℕ) (hN : 0 < N) :
    RingWF (nr_init T N) := by
  refine ⟨hN, ?_, ?_, hN, ?_⟩ <;> simp [nr_init]

theorem ringList_nr_init (T : Type) [Inhabited T] (N : ℕ) :
    ringList (nr_init T N) = [] := by
  simp [ringList, nr_init]

/-- A successful `nr_write` appends to the FIFO contents. -/
theorem nr_write_ok {T : Type} [Inhabited T] (r : NanoRing T) (v : T)
    (hwf : RingWF r) (hlt : r.count < r.capacity) :
    nr_write r v
      = (.ok, { r with data := r.data.set r.tail v,
                       tail := (r.tail + 1) % r.capacity,
                       count := r.count + 1 }) ∧
    RingWF (nr_write r v).2 ∧
    ringList (nr_write r v).2 = ringList r ++ [v] := by
  obtain ⟨hcap, hlen, hcnt, hhd, htl⟩ := hwf
  have heq : nr_write r v
      = (.ok, { r with data := r.data.set r.tail v,
                       tail := (r.tail + 1) % r.capacity,
                       count := r.count + 1 }) := by
    rw [nr_write, if_neg (by omega)]
  refine ⟨heq, ?_, ?_⟩
  · rw [heq]
    refine ⟨hcap, by simpa using hlen,
      by show r.count + 1 ≤ r.capacity; omega, hhd, ?_⟩
    show (r.tail + 1) % r.capacity = (r.head + (r.count + 1)) % r.capacity
    rw [htl, Nat.mod_add_mod, ← Nat.add_assoc]
  · rw [heq]
    show (List.range (r.count + 1)).map
        (fun i => (r.data.set r.tail v).getD ((r.head + i) % r.capacity) default)
      = ringList r ++ [v]
    rw [List.range_succ, List.map_append]
    congr 1
    · apply List.map_congr_left
      intro i hi
      have hil : i < r.count := List.mem_range.mp hi
      apply getD_set_ne
      rw [htl]
      intro hcol
      exact absurd (mod_add_left_cancel (by omega) (by omega) hcol) (by omega)
    · show [(r.data.set r.tail v).getD ((r.head + r.count) % r.capacity) default] = [v]
      rw [← htl, getD_set_self]
      rw [hlen, htl]
      exact Nat.mod_lt _ hcap

/-- A successful `nr_read` removes and returns the FIFO head. -/
theorem nr_read_ok {T : Type} [Inhabited T] (r : NanoRing T)
    (hwf : RingWF r) (hne : r.count ≠ 0) :
    nr_read r
      = (.ok, some (r.data.getD r.head default),
         { r with head := (r.head + 1) % r.capacity,
                  count := r.count - 1 }) ∧
    RingWF (nr_read r).2.2 ∧
    ringList r = r.data.getD r.head default :: ringList (nr_read r).2.2 := by
  obtain ⟨hcap, hlen, hcnt, hhd, htl⟩ := hwf
  have heq : nr_read r
      = (.ok, some (r.data.getD r.head default),
         { r with head := (r.head + 1) % r.capacity,
                  count := r.count - 1 }) := by
    rw [nr_read, if_neg hne]
  refine ⟨heq, ?_, ?_⟩
  · rw [heq]
    refine ⟨hcap, hlen, by show r.count - 1 ≤ r.capacity; omega,
      Nat.mod_lt _ hcap, ?_⟩
    show r.tail = ((r.head + 1) % r.capacity + (r.count - 1)) % r.capacity
    rw [htl, Nat.mod_add_mod]
    congr 1
    omega
  · rw [heq]
    show (List.range r.count).map
        (fun i => r.data.getD ((r.head + i) % r.capacity) default)
      = r.data.getD r.head default
        :: (List.range (r.count - 1)).map
             (fun i => r.data.getD (((r.head + 1) % r.capacity + i) % r.capacity) default)
    have hc : r.count = (r.count - 1) + 1 := by omega
    rw [hc, List.range_succ_eq_map, List.map_cons, List.map_map]
    congr 1
    · rw [Nat.add_zero, Nat.mod_eq_of_lt hhd]
    · apply List.map_congr_left
      intro i _
      show r.data.getD ((r.head + (i + 1)) % r.capacity) default
        = r.data.getD (((r.head + 1) % r.capacity + i) % r.capacity) default
      rw [Nat.mod_add_mod]
      congr 2
      omega

/-- Writing a whole list into a ring with enough free space succeeds and
appends the list to the FIFO contents. -/
theorem nrWriteAll_ok {T : Type} [Inhabited T] (vs : List T)
    (r : NanoRing T) (hwf : RingWF r)
    (hle : r.count + vs.length ≤ r.capacity) :
    RingWF (nrWriteAll r vs) ∧
    (nrWriteAll r vs).count = r.count + vs.length ∧
    (nrWriteAll r vs).capacity = r.capacity ∧
    ringList (nrWriteAll r vs) = ringList r ++ vs := by
  induction vs generalizing r with
  | nil => simpa [nrWriteAll] using hwf
  | cons v vs ih =>
      obtain ⟨heq, hwf', hcont⟩ :=
        nr_write_ok r v hwf (by simp at hle; omega)
      have hcnt : (nr_write r v).2.count = r.count + 1 := by rw [heq]
      have hcap : (nr_write r v).2.capacity = r.capacity := by rw [heq]
      obtain ⟨h1, h2, h3, h4⟩ := ih (nr_write r v).2 hwf'
        (by rw [hcnt, hcap]; simp at hle ⊢; omega)
      refine ⟨by simpa [nrWriteAll] using h1, ?_, ?_, ?_⟩
      · show (nrWriteAll (nr_write r v).2 vs).count = _
        rw [h2, hcnt]
        simp
        omega
      · show (nrWriteAll (nr_write r v).2 vs).capacity = _
        rw [h3, hcap]
      · show ringList (nrWriteAll (nr_write r v).2 vs) = _
        rw [h4, hcont]
        simp

/-- Reading a well-formed ring `count` times returns exactly the FIFO
contents and empties it. -/
theorem nrReadAll_ok {T : Type} [Inhabited T] (n : ℕ) (r : NanoRing T)
    (hwf : RingWF r) (hn : n = r.count) :
    (nrReadAll r n).2 = ringList r ∧
    (nrReadAll r n).1.count = 0 ∧
    (nrReadAll r n).1.capacity = r.capacity ∧
    RingWF (nrReadAll r n).1 := by
  induction n generalizing r with
  | zero =>
      refine ⟨?_, hn.symm, rfl, hwf⟩
      rw [ringList, ← hn]
      rfl
  | succ n ih =>
      obtain ⟨heq, hwf', hcont⟩ := nr_read_ok r hwf (by omega)
      have hcnt : (nr_read r).2.2.count = r.count - 1 := by rw [heq]
      obtain ⟨h1, h2, h3, h4⟩ := ih (nr_read r).2.2 hwf' (by omega)
      have hstep : nrReadAll r (n + 1)
          = ((nrReadAll (nr_read r).2.2 n).1,
             r.data.getD r.head default :: (nrReadAll (nr_read r).2.2 n).2) := by
        show (match nr_read r with
              | (.ok, some v, ring') =>
                  let p := nrReadAll ring' n
                  (p.1, v :: p.2)
              | (_, _, ring') => (ring', [])) = _
        rw [heq]
      rw [hstep]
      refine ⟨?_, h2, ?_, h4⟩
      · rw [hcont]
        simpa using h1
      · show (nrReadAll (nr_read r).2.2 n).1.capacity = _
        rw [h3, heq]

/-- **C6**: for every well-formed `Ring<T,N>`: `nr_write` returns Full
exactly when `count = N` (storing at `tail`, advancing `tail` mod `N`
and incrementing `count` otherwise), `nr_read` returns Empty exactly
when `count = 0` (returning the element at `head`, advancing `head` mod
`N` and decrementing `count` otherwise); consequently, from an
initialized ring, writing `N` values makes `is_full` true, an `(N+1)`-th
write returns Full, reading them all returns exactly the written values
in write order (FIFO), leaves `is_empty` true, and a further read
returns Empty. -/
theorem ring_write_read_fifo {T : Type} [Inhabited T] (N : ℕ)
    (r : NanoRing T) (v : T) (vs : List T)
    (hN : 0 < N) (hwf : RingWF r) (hlen : vs.length = N) :
    (r.count = r.capacity → nr_write r v = (.full, r)) ∧
    (r.count < r.capacity →
      nr_write r v
        = (.ok, { r with data := r.data.set r.tail v,
                         tail := (r.tail + 1) % r.capacity,
                         count := r.count + 1 }) ∧
      ringList (nr_write r v).2 = ringList r ++ [v]) ∧
    (r.count = 0 → nr_read r = (.empty, none, r)) ∧
    (r.count ≠ 0 →
      nr_read r
        = (.ok, some (r.data.getD r.head default),
           { r with head := (r.head + 1) % r.capacity,
                    count := r.count - 1 }) ∧
      ringList r = r.data.getD r.head default :: ringList (nr_read r).2.2) ∧
    (nr_is_full (nrWriteAll (nr_init T N) vs) = true ∧
     (nr_write (nrWriteAll (nr_init T N) vs) v).1 = .full ∧
     (nrReadAll (nrWriteAll (nr_init T N) vs) N).2 = vs ∧
     nr_is_empty (nrReadAll (nrWriteAll (nr_init T N) vs) N).1 = true ∧
     (nr_read (nrReadAll (nrWriteAll (nr_init T N) vs) N).1).1 = .empty) := by
  refine ⟨fun h => ?_, fun h => ?_, fun h => ?_, fun h => ?_, ?_⟩
  · rw [nr_write, if_pos (le_of_eq h.symm)]
  · obtain ⟨heq, -, hcont⟩ := nr_write_ok r v hwf h
    exact ⟨heq, hcont⟩
  · rw [nr_read, if_pos h]
  · obtain ⟨heq, -, hcont⟩ := nr_read_ok r hwf h
    exact ⟨heq, hcont⟩
  · obtain ⟨hwfW, hcntW, hcapW, hlistW⟩ :=
      nrWriteAll_ok vs (nr_init T N) (nr_init_wf T N hN)
        (by simp [nr_init, hlen])
    have hfullW : (nrWriteAll (nr_init T N) vs).count
        = (nrWriteAll (nr_init T N) vs).capacity := by
      rw [hcntW, hcapW]
      simp [nr_init, hlen]
    obtain ⟨hread, hcnt0, hcapR, -⟩ :=
      nrReadAll_ok N (nrWriteAll (nr_init T N) vs) hwfW
        (by rw [hcntW]; simp [nr_init, hlen])
    refine ⟨?_, ?_, ?_, ?_, ?_⟩
    · simp [nr_is_full, hfullW]
    · rw [nr_write, if_pos (le_of_eq hfullW.symm)]
    · rw [hread, hlistW, ringList_nr_init]
      rfl
    · simp [nr_is_empty, hcnt0]
    · rw [nr_read, if_pos hcnt0]

/-- Witness for C6: a `Ring<ℕ,4>` filled with `[10, 20, 30, 40]`. -/
theorem ring_write_read_fifo_witness :
    nr_is_full (nrWriteAll (nr_init ℕ 4) [10, 20, 30, 40]) = true ∧
    (nr_write (nrWriteAll (nr_init ℕ 4) [10, 20, 30, 40]) 50).1 = .full ∧
    (nrReadAll (nrWriteAll (nr_init ℕ 4) [10, 20, 30, 40]) 4).2
      = [10, 20, 30, 40] ∧
    nr_is_empty (nrReadAll (nrWriteAll (nr_init ℕ 4) [10, 20, 30, 40]) 4).1
      = true := by
  have h := (ring_write_read_fifo 4 (nr_init ℕ 4) 50 [10, 20, 30, 40]
    (by decide) (by decide) rfl).2.2.2.2
  exact ⟨h.1, h.2.1, h.2.2.1, h.2.2.2.1⟩

/-! ## Chain-walk lemmas. -/

theorem chainFind_eq_none {key : Key} {c : List MapEntry} :
    chainFind key c = none ↔ key ∉ c.map Prod.fst := by
  induction c with
  | nil => simp [chainFind]
  | cons e es ih =>
      rw [chainFind]
      by_cases h : e.1 = key
      · simp [h]
      · simp only [if_neg h, List.map_cons, List.mem_cons, ih]
        constructor
        · rintro hn (h1 | h2)
          · exact h h1.symm
          · exact hn h2
        · intro hn h2
          exact hn (Or.inr h2)

theorem chainFind_mem {key : Key} {c : List MapEntry} {e : MapEntry}
    (h : chainFind key c = some e) : e ∈ c := by
  induction c with
  | nil => exact absurd h (by simp [chainFind])
  | cons f fs ih =>
      rw [chainFind] at h
      split_ifs at h with hf
      · cases h
        exact List.mem_cons_self _ _
      · exact List.mem_cons_of_mem _ (ih h)

theorem chainFind_key {key : Key} {c : List MapEntry} {e : MapEntry}
    (h : chainFind key c = some e) : e.1 = key := by
  induction c with
  | nil => exact absurd h (by simp [chainFind])
  | cons f fs ih =>
      rw [chainFind] at h
      split_ifs at h with hf
      · cases h
        exact hf
      · exact ih h

theorem chainSetValue_map_fst (key : Key) (v : ℕ) (c : List MapEntry) :
    (chainSetValue key v c).map Prod.fst = c.map Prod.fst := by
  induction c with
  | nil => rfl
  | cons e es ih =>
      rw [chainSetValue]
      split_ifs with h
      · simp
      · simp [ih]

theorem chainSetValue_length (key : Key) (v : ℕ) (c : List MapEntry) :
    (chainSetValue key v c).length = c.length := by
  have := congrArg List.length (chainSetValue_map_fst key v c)
  simpa using this

theorem chainFind_chainSetValue {key : Key} {c : List MapEntry} {e : MapEntry}
    (v : ℕ) (h : chainFind key c = some e) :
    chainFind key (chainSetValue key v c) = some (e.1, v) := by
  induction c with
  | nil => exact absurd h (by simp [chainFind])
  | cons f fs ih =>
      rw [chainFind] at h
      rw [chainSetValue]
      split_ifs at h ⊢ with hf
      · cases h
        rw [chainFind, if_pos hf]
      · rw [chainFind, if_neg hf]
        exact ih h

theorem chainRemove_eq_none {key : Key} {c : List MapEntry} :
    chainRemove key c = none ↔ key ∉ c.map Prod.fst := by
  induction c with
  | nil => simp [chainRemove]
  | cons e es ih =>
      rw [chainRemove]
      by_cases h : e.1 = key
      · simp [h]
      · rw [if_neg h]
        have hmatch : (match chainRemove key es with
            | some es' => some (e :: es')
            | none => none) = none ↔ chainRemove key es = none := by
          rcases chainRemove key es with - | es' <;> simp
        rw [hmatch, ih]
        simp only [List.map_cons, List.mem_cons]
        constructor
        · intro hn
          rintro (h1 | h2)
          · exact h h1.symm
          · exact hn h2
        · intro hn h2
          exact hn (Or.inr h2)


theorem chainRemove_sublist {key : Key} {c c' : List MapEntry}
    (h : chainRemove key c = some c') : c'.Sublist c := by
  induction c generalizing c' with
  | nil => exact absurd h (by simp [chainRemove])
  | cons e es ih =>
      rw [chainRemove] at h
      split_ifs at h with hf
      · cases h
        exact (List.sublist_cons_self e es)
      · rcases hr : chainRemove key es with - | es'
        · rw [hr] at h
          exact absurd h (by simp)
        · rw [hr] at h
          cases h
          exact List.Sublist.cons₂ e (ih hr)

theorem chainRemove_length {key : Key} {c c' : List MapEntry}
    (h : chainRemove key c = some c') : c'.length + 1 = c.length := by
  induction c generalizing c' with
  | nil => exact absurd h (by simp [chainRemove])
  | cons e es ih =>
      rw [chainRemove] at h
      split_ifs at h with hf
      · cases h
        rfl
      · rcases hr : chainRemove key es with - | es'
        · rw [hr] at h
          exact absurd h (by simp)
        · rw [hr] at h
          cases h
          simpa using ih hr

theorem chainRemove_not_mem {key : Key} {c c' : List MapEntry}
    (hnd : (c.map Prod.fst).Nodup) (h : chainRemove key c = some c') :
    key ∉ c'.map Prod.fst := by
  induction c generalizing c' with
  | nil => exact absurd h (by simp [chainRemove])
  | cons e es ih =>
      rw [chainRemove] at h
      rw [List.map_cons, List.nodup_cons] at hnd
      split_ifs at h with hf
      · cases h
        rw [← hf]
        exact hnd.1
      · rcases hr : chainRemove key es with - | es'
        · rw [hr] at h
          exact absurd h (by simp)
        · rw [hr] at h
          cases h
          rw [List.map_cons, List.mem_cons]
          rintro (h1 | h2)
          · exact hf h1.symm
          · exact ih hnd.2 hr h2

/-! ## Bucket-array decomposition lemmas. -/

theorem getD_replicate_nil {α : Type} (n m : ℕ) :
    (List.replicate n ([] : List α)).getD m [] = [] := by
  rw [List.getD_eq_getElem?_getD, List.getElem?_replicate]
  split <;> rfl

theorem getD_eq_getElem_of_lt {α : Type} (l : List (List α)) (i : ℕ)
    (h : i < l.length) : l.getD i [] = l[i] := by
  rw [List.getD_eq_getElem?_getD, List.getElem?_eq_getElem h]
  rfl

theorem getD_mem_of_ne_nil {α : Type} (l : List (List α)) (i : ℕ)
    (h : l.getD i [] ≠ []) : l.getD i [] ∈ l ∧ i < l.length := by
  rcases Nat.lt_or_ge i l.length with hi | hi
  · rw [getD_eq_getElem_of_lt l i hi]
    exact ⟨List.getElem_mem hi, hi⟩
  · exfalso
    apply h
    rw [List.getD_eq_getElem?_getD, List.getElem?_eq_none hi]
    rfl

theorem flatten_decomp {α : Type} (l : List (List α)) (i : ℕ)
    (h : i < l.length) :
    l.flatten = (l.take i).flatten ++ l[i] ++ (l.drop (i + 1)).flatten := by
  conv_lhs => rw [← List.take_append_drop i l]
  rw [List.flatten_append, List.drop_eq_getElem_cons h, List.flatten_cons,
    List.append_assoc]

theorem flatten_set {α : Type} (l : List (List α)) (i : ℕ) (c : List α)
    (h : i < l.length) :
    (l.set i c).flatten = (l.take i).flatten ++ c ++ (l.drop (i + 1)).flatten := by
  rw [List.set_eq_take_cons_drop c h, List.flatten_append, List.flatten_cons,
    List.append_assoc]

theorem getD_set_self_list {α : Type} (l : List (List α)) (i : ℕ)
    (c : List α) (h : i < l.length) :
    (l.set i c).getD i [] = c := by
  rw [List.getD_eq_getElem?_getD, List.getElem?_set_eq_of_lt c h]
  rfl

theorem getD_set_ne_list {α : Type} (l : List (List α)) (i j : ℕ)
    (c : List α) (h : i ≠ j) :
    (l.set i c).getD j [] = l.getD j [] := by
  rw [List.getD_eq_getElem?_getD, List.getD_eq_getElem?_getD,
    List.getElem?_set_ne h]

/-! ## Map-level lemmas. -/

/-- The map state `nm_set` lazily creates on a never-populated map: the
result of `nm_init_with_capacity(map, 16)` with the current global
seed. -/
def freshMap (gseed : ℕ) : NanoMap := ⟨List.replicate 16 [], 16, 0, gseed, 0⟩

theorem mapWF_freshMap (gseed : ℕ) : MapWF (freshMap gseed) := by
  refine ⟨rfl, rfl, ?_, ?_⟩
  · exact List.nodup_nil
  · intro i hi e he
    rw [show (freshMap gseed).buckets = List.replicate 16 [] from rfl,
      getD_replicate_nil] at he
    exact absurd he (List.not_mem_nil e)

theorem mapWF_nm_init (gseed : ℕ) : MapWF (nm_init gseed) := by
  refine ⟨rfl, rfl, List.nodup_nil, ?_⟩
  intro i hi e he
  exact absurd hi (by simp [nm_init])

theorem nm_set_bc_ne (gseed : ℕ) (ap : SetAllocs) (m : NanoMap) (key : Key)
    (value : ℕ) (h : m.bucket_count ≠ 0) :
    nm_set gseed ap m key value
      = (match nm_find_entry m key with
         | some _ =>
             (.ok, { m with
                       buckets := m.buckets.set (nm_bucket_idx m key)
                         (chainSetValue key value
                           (m.buckets.getD (nm_bucket_idx m key) [])) })
         | none =>
             if !ap.entryOk then (.nomem, m)
             else if !ap.keyOk then (.nomem, m)
             else (.ok, { m with
                            buckets := m.buckets.set (nm_bucket_idx m key)
                              ((key, value)
                                :: m.buckets.getD (nm_bucket_idx m key) []),
                            size := m.size + 1 })) := by
  rw [nm_set, if_neg h]

theorem nm_init_with_capacity_16 (gseed : ℕ) (allocOk : Bool) (m : NanoMap) :
    nm_init_with_capacity gseed allocOk m 16
      = if allocOk then (.ok, freshMap gseed) else (.nomem, m) := by
  have hc : nanods_check_mul_overflow 16 8 = false := by decide
  rw [nm_init_with_capacity]
  simp only [show ((16 : ℕ) = 0) = False by simp, if_false]
  rw [hc]
  cases allocOk <;> simp [freshMap]

theorem nm_set_lazy (gseed : ℕ) (ap : SetAllocs) (m : NanoMap) (key : Key)
    (value : ℕ) (h : m.bucket_count = 0) (hb : ap.bucketsOk = true) :
    nm_set gseed ap m key value = nm_set gseed ap (freshMap gseed) key value := by
  rw [nm_set_bc_ne gseed ap (freshMap gseed) key value (by simp [freshMap])]
  rw [nm_set, if_pos h, hb, nm_init_with_capacity_16, if_pos rfl]

theorem nm_set_lazy_nomem (gseed : ℕ) (ap : SetAllocs) (m : NanoMap)
    (key : Key) (value : ℕ) (h : m.bucket_count = 0)
    (hb : ap.bucketsOk = false) :
    nm_set gseed ap m key value = (.nomem, m) := by
  rw [nm_set, if_pos h, hb, nm_init_with_capacity_16, if_neg (by simp)]

theorem find_entry_mem_keys {m : NanoMap} {key : Key} {e : MapEntry}
    (h : nm_find_entry m key = some e) :
    e ∈ allEntries m ∧ e.1 = key := by
  rw [nm_find_entry] at h
  by_cases hbc : m.bucket_count = 0
  · rw [if_pos hbc] at h
    exact absurd h (by simp)
  · rw [if_neg hbc] at h
    have hmem := chainFind_mem h
    have hkey := chainFind_key h
    have hne : m.buckets.getD (nm_bucket_idx m key) [] ≠ [] := by
      intro hnil
      rw [hnil] at hmem
      exact absurd hmem (List.not_mem_nil e)
    obtain ⟨hbl, -⟩ := getD_mem_of_ne_nil m.buckets (nm_bucket_idx m key) hne
    exact ⟨List.mem_flatten.mpr ⟨_, hbl, hmem⟩, hkey⟩

theorem chain_subset_allEntries {m : NanoMap} (i : ℕ) {e : MapEntry}
    (h : e ∈ m.buckets.getD i []) : e ∈ allEntries m := by
  have hne : m.buckets.getD i [] ≠ [] := by
    intro hnil
    rw [hnil] at h
    exact absurd h (List.not_mem_nil e)
  obtain ⟨hbl, -⟩ := getD_mem_of_ne_nil m.buckets i hne
  exact List.mem_flatten.mpr ⟨_, hbl, h⟩

/-- On a well-formed map, `nm_find_entry` misses exactly the keys that
are stored nowhere in the map. -/
theorem find_entry_none_iff {m : NanoMap} (key : Key) (hwf : MapWF m) :
    nm_find_entry m key = none ↔ key ∉ allKeys m := by
  obtain ⟨hlen, -, -, hbok⟩ := hwf
  rw [nm_find_entry]
  split_ifs with hbc
  · have hnil : m.buckets = [] := List.length_eq_zero.mp (by omega)
    simp [allKeys, allEntries, hnil]
  · rw [chainFind_eq_none]
    constructor
    · intro hnc hk
      apply hnc
      obtain ⟨e, he, hek⟩ := List.mem_map.mp hk
      obtain ⟨c, hc, hec⟩ := List.mem_flatten.mp he
      obtain ⟨j, hj, hcj⟩ := List.mem_iff_getElem.mp hc
      have hgd : m.buckets.getD j [] = c := by
        rw [getD_eq_getElem_of_lt _ _ hj, hcj]
      have hbj := hbok j hj e (by rw [hgd]; exact hec)
      rw [hek] at hbj
      rw [hbj, hgd]
      exact List.mem_map.mpr ⟨e, hec, hek⟩
    · intro hk hc
      apply hk
      obtain ⟨e, hec, hek⟩ := List.mem_map.mp hc
      exact List.mem_map.mpr
        ⟨e, chain_subset_allEntries (nm_bucket_idx m key) hec, hek⟩

/-- Full characterization of a successful `nm_set` (entry/key
allocations succeeding) on a well-formed map that already has a bucket
array.  The new/overwritten entry is found by a subsequent lookup; the
size grows by one exactly when the key was absent. -/
theorem nm_set_char_bc_ne (gseed : ℕ) (ap : SetAllocs) (m : NanoMap)
    (key : Key) (value : ℕ) (hwf : MapWF m) (hbc : m.bucket_count ≠ 0)
    (hae : ap.entryOk = true) (hak : ap.keyOk = true) :
    (nm_set gseed ap m key value).1 = .ok ∧
    MapWF (nm_set gseed ap m key value).2 ∧
    nm_find_entry (nm_set gseed ap m key value).2 key = some (key, value) ∧
    (nm_set gseed ap m key value).2.bucket_count = m.bucket_count ∧
    (nm_set gseed ap m key value).2.seed = m.seed ∧
    ((nm_find_entry m key).isSome →
      (nm_set gseed ap m key value).2.size = m.size) ∧
    (nm_find_entry m key = none →
      (nm_set gseed ap m key value).2.size = m.size + 1) ∧
    (∀ x ∈ allKeys (nm_set gseed ap m key value).2,
      x ∈ allKeys m ∨ x = key) := by
  obtain ⟨hlen, hsize, hnd, hbok⟩ := hwf
  have hbpos : 0 < m.bucket_count := Nat.pos_of_ne_zero hbc
  have hidx : nm_bucket_idx m key < m.buckets.length := by
    rw [hlen]
    exact Nat.mod_lt _ hbpos
  have hchain : m.buckets.getD (nm_bucket_idx m key) []
      = m.buckets[nm_bucket_idx m key] := getD_eq_getElem_of_lt _ _ hidx
  have hAE : allEntries m
      = (m.buckets.take (nm_bucket_idx m key)).flatten
        ++ m.buckets.getD (nm_bucket_idx m key) []
        ++ (m.buckets.drop (nm_bucket_idx m key + 1)).flatten := by
    rw [hchain]
    exact flatten_decomp m.buckets _ hidx
  have hAK : allKeys m
      = ((m.buckets.take (nm_bucket_idx m key)).flatten).map Prod.fst
        ++ (m.buckets.getD (nm_bucket_idx m key) []).map Prod.fst
        ++ ((m.buckets.drop (nm_bucket_idx m key + 1)).flatten).map Prod.fst := by
    rw [allKeys, hAE]
    simp [List.map_append]
  rw [nm_set_bc_ne gseed ap m key value hbc]
  rcases hfind : nm_find_entry m key with - | e
  · -- key absent: a fresh entry is linked at the head of its chain
    rw [hae, hak]
    simp only [Bool.not_true, Bool.false_eq_true, if_false]
    have hknotin : key ∉ allKeys m :=
      (find_entry_none_iff key ⟨hlen, hsize, hnd, hbok⟩).mp hfind
    refine ⟨trivial, ⟨?_, ?_, ?_, ?_⟩, ?_, trivial, trivial, ?_, ⟨fun _ => trivial, ?_⟩⟩
    · show (m.buckets.set _ _).length = m.bucket_count
      rw [List.length_set, hlen]
    · show m.size + 1 = (allEntries _).length
      have h2 : allEntries { m with
            buckets := m.buckets.set (nm_bucket_idx m key)
              ((key, value) :: m.buckets.getD (nm_bucket_idx m key) []),
            size := m.size + 1 }
          = (m.buckets.take (nm_bucket_idx m key)).flatten
            ++ ((key, value) :: m.buckets.getD (nm_bucket_idx m key) [])
            ++ (m.buckets.drop (nm_bucket_idx m key + 1)).flatten :=
        flatten_set m.buckets _ _ hidx
      rw [h2, hsize, hAE]
      simp only [List.length_append, List.length_cons]
      omega
    · show (allKeys _).Nodup
      have h2 : allKeys { m with
            buckets := m.buckets.set (nm_bucket_idx m key)
              ((key, value) :: m.buckets.getD (nm_bucket_idx m key) []),
            size := m.size + 1 }
          = ((m.buckets.take (nm_bucket_idx m key)).flatten).map Prod.fst
            ++ (key :: (m.buckets.getD (nm_bucket_idx m key) []).map Prod.fst)
            ++ ((m.buckets.drop (nm_bucket_idx m key + 1)).flatten).map Prod.fst := by
        rw [allKeys, allEntries,
          show ({ m with
            buckets := m.buckets.set (nm_bucket_idx m key)
              ((key, value) :: m.buckets.getD (nm_bucket_idx m key) []),
            size := m.size + 1 } : NanoMap).buckets
            = m.buckets.set (nm_bucket_idx m key)
              ((key, value) :: m.buckets.getD (nm_bucket_idx m key) []) from rfl,
          flatten_set m.buckets _ _ hidx]
        simp [List.map_append]
      rw [h2, List.append_assoc, List.cons_append, List.nodup_middle,
        ← List.append_assoc, List.nodup_cons]
      rw [hAK] at hknotin hnd
      exact ⟨hknotin, hnd⟩
    · -- every entry still sits in its hash bucket
      intro i hi e' he'
      rw [List.length_set] at hi
      have hb_eq : nm_bucket_idx { m with
            buckets := m.buckets.set (nm_bucket_idx m key)
              ((key, value) :: m.buckets.getD (nm_bucket_idx m key) []),
            size := m.size + 1 } e'.1 = nm_bucket_idx m e'.1 := rfl
      rw [hb_eq]
      by_cases hieq : i = nm_bucket_idx m key
      · subst hieq
        rw [show ({ m with
            buckets := m.buckets.set (nm_bucket_idx m key)
              ((key, value) :: m.buckets.getD (nm_bucket_idx m key) []),
            size := m.size + 1 } : NanoMap).buckets
            = m.buckets.set (nm_bucket_idx m key)
              ((key, value) :: m.buckets.getD (nm_bucket_idx m key) []) from rfl,
          getD_set_self_list _ _ _ hidx] at he'
        rcases List.mem_cons.mp he' with h1 | h2
        · rw [h1]
        · exact hbok _ hidx e' h2
      · rw [show ({ m with
            buckets := m.buckets.set (nm_bucket_idx m key)
              ((key, value) :: m.buckets.getD (nm_bucket_idx m key) []),
            size := m.size + 1 } : NanoMap).buckets
            = m.buckets.set (nm_bucket_idx m key)
              ((key, value) :: m.buckets.getD (nm_bucket_idx m key) []) from rfl,
          getD_set_ne_list _ _ _ _ (fun h => hieq h.symm)] at he'
        exact hbok i hi e' he'
    · -- the fresh entry is found at the head of its chain
      show nm_find_entry _ key = _
      rw [nm_find_entry]
      rw [if_neg (show ¬({ m with
            buckets := m.buckets.set (nm_bucket_idx m key)
              ((key, value) :: m.buckets.getD (nm_bucket_idx m key) []),
            size := m.size + 1 } : NanoMap).bucket_count = 0 from hbc)]
      rw [show nm_bucket_idx { m with
            buckets := m.buckets.set (nm_bucket_idx m key)
              ((key, value) :: m.buckets.getD (nm_bucket_idx m key) []),
            size := m.size + 1 } key = nm_bucket_idx m key from rfl]
      rw [show ({ m with
            buckets := m.buckets.set (nm_bucket_idx m key)
              ((key, value) :: m.buckets.getD (nm_bucket_idx m key) []),
            size := m.size + 1 } : NanoMap).buckets
            = m.buckets.set (nm_bucket_idx m key)
              ((key, value) :: m.buckets.getD (nm_bucket_idx m key) []) from rfl,
        getD_set_self_list _ _ _ hidx, chainFind, if_pos rfl]
    · intro hs
      simp at hs
    · intro x hx
      have h2 : allKeys { m with
            buckets := m.buckets.set (nm_bucket_idx m key)
              ((key, value) :: m.buckets.getD (nm_bucket_idx m key) []),
            size := m.size + 1 }
          = ((m.buckets.take (nm_bucket_idx m key)).flatten).map Prod.fst
            ++ (key :: (m.buckets.getD (nm_bucket_idx m key) []).map Prod.fst)
            ++ ((m.buckets.drop (nm_bucket_idx m key + 1)).flatten).map Prod.fst := by
        rw [allKeys, allEntries,
          show ({ m with
            buckets := m.buckets.set (nm_bucket_idx m key)
              ((key, value) :: m.buckets.getD (nm_bucket_idx m key) []),
            size := m.size + 1 } : NanoMap).buckets
            = m.buckets.set (nm_bucket_idx m key)
              ((key, value) :: m.buckets.getD (nm_bucket_idx m key) []) from rfl,
          flatten_set m.buckets _ _ hidx]
        simp [List.map_append]
      rw [h2] at hx
      rw [hAK]
      simp only [List.mem_append, List.mem_cons] at hx ⊢
      tauto
  · -- key present: the existing entry's value is overwritten in place
    have hcf : chainFind key (m.buckets.getD (nm_bucket_idx m key) [])
        = some e := by
      rw [nm_find_entry, if_neg hbc] at hfind
      exact hfind
    have hek : e.1 = key := chainFind_key hcf
    refine ⟨rfl, ⟨?_, ?_, ?_, ?_⟩, ?_, rfl, rfl, fun _ => rfl, ?_, ?_⟩
    · show (m.buckets.set _ _).length = m.bucket_count
      rw [List.length_set, hlen]
    · show m.size = (allEntries _).length
      have h2 : allEntries { m with
            buckets := m.buckets.set (nm_bucket_idx m key)
              (chainSetValue key value (m.buckets.getD (nm_bucket_idx m key) [])) }
          = (m.buckets.take (nm_bucket_idx m key)).flatten
            ++ chainSetValue key value (m.buckets.getD (nm_bucket_idx m key) [])
            ++ (m.buckets.drop (nm_bucket_idx m key + 1)).flatten :=
        flatten_set m.buckets _ _ hidx
      rw [h2, hsize, hAE]
      simp only [List.length_append, chainSetValue_length]
    · show (allKeys _).Nodup
      have h2 : allKeys { m with
            buckets := m.buckets.set (nm_bucket_idx m key)
              (chainSetValue key value (m.buckets.getD (nm_bucket_idx m key) [])) }
          = allKeys m := by
        rw [allKeys, allEntries,
          show ({ m with
            buckets := m.buckets.set (nm_bucket_idx m key)
              (chainSetValue key value (m.buckets.getD (nm_bucket_idx m key) []))
            } : NanoMap).buckets
            = m.buckets.set (nm_bucket_idx m key)
              (chainSetValue key value (m.buckets.getD (nm_bucket_idx m key) []))
            from rfl,
          flatten_set m.buckets _ _ hidx, hAK]
        simp [List.map_append, chainSetValue_map_fst]
      rw [h2]
      exact hnd
    · intro i hi e' he'
      rw [List.length_set] at hi
      have hb_eq : nm_bucket_idx { m with
            buckets := m.buckets.set (nm_bucket_idx m key)
              (chainSetValue key value (m.buckets.getD (nm_bucket_idx m key) [])) }
            e'.1 = nm_bucket_idx m e'.1 := rfl
      rw [hb_eq]
      by_cases hieq : i = nm_bucket_idx m key
      · subst hieq
        rw [show ({ m with
            buckets := m.buckets.set (nm_bucket_idx m key)
              (chainSetValue key value (m.buckets.getD (nm_bucket_idx m key) []))
            } : NanoMap).buckets
            = m.buckets.set (nm_bucket_idx m key)
              (chainSetValue key value (m.buckets.getD (nm_bucket_idx m key) []))
            from rfl,
          getD_set_self_list _ _ _ hidx] at he'
        have hfst : e'.1 ∈ (m.buckets.getD (nm_bucket_idx m key) []).map Prod.fst := by
          rw [← chainSetValue_map_fst key value]
          exact List.mem_map.mpr ⟨e', he', rfl⟩
        obtain ⟨f, hf, hff⟩ := List.mem_map.mp hfst
        have := hbok _ hidx f hf
        rw [← hff]
        exact this
      · rw [show ({ m with
            buckets := m.buckets.set (nm_bucket_idx m key)
              (chainSetValue key value (m.buckets.getD (nm_bucket_idx m key) []))
            } : NanoMap).buckets
            = m.buckets.set (nm_bucket_idx m key)
              (chainSetValue key value (m.buckets.getD (nm_bucket_idx m key) []))
            from rfl,
          getD_set_ne_list _ _ _ _ (fun h => hieq h.symm)] at he'
        exact hbok i hi e' he'
    · show nm_find_entry _ key = _
      rw [nm_find_entry]
      rw [if_neg (show ¬({ m with
            buckets := m.buckets.set (nm_bucket_idx m key)
              (chainSetValue key value (m.buckets.getD (nm_bucket_idx m key) []))
            } : NanoMap).bucket_count = 0 from hbc)]
      rw [show nm_bucket_idx { m with
            buckets := m.buckets.set (nm_bucket_idx m key)
              (chainSetValue key value (m.buckets.getD (nm_bucket_idx m key) []))
            } key = nm_bucket_idx m key from rfl]
      rw [show ({ m with
            buckets := m.buckets.set (nm_bucket_idx m key)
              (chainSetValue key value (m.buckets.getD (nm_bucket_idx m key) []))
            } : NanoMap).buckets
            = m.buckets.set (nm_bucket_idx m key)
              (chainSetValue key value (m.buckets.getD (nm_bucket_idx m key) []))
            from rfl,
        getD_set_self_list _ _ _ hidx]
      rw [chainFind_chainSetValue value hcf, hek]
    · intro hnone
      exact Option.noConfusion hnone
    · intro x hx
      have h2 : allKeys { m with
            buckets := m.buckets.set (nm_bucket_idx m key)
              (chainSetValue key value (m.buckets.getD (nm_bucket_idx m key) [])) }
          = allKeys m := by
        rw [allKeys, allEntries,
          show ({ m with
            buckets := m.buckets.set (nm_bucket_idx m key)
              (chainSetValue key value (m.buckets.getD (nm_bucket_idx m key) []))
            } : NanoMap).buckets
            = m.buckets.set (nm_bucket_idx m key)
              (chainSetValue key value (m.buckets.getD (nm_bucket_idx m key) []))
            from rfl,
          flatten_set m.buckets _ _ hidx, hAK]
        simp [List.map_append, chainSetValue_map_fst]
      rw [h2] at hx
      exact Or.inl hx

/-- `nm_set` with all allocations succeeding, on any well-formed map
(lazily allocating the 16 buckets if needed). -/
theorem nm_set_all_char (gseed : ℕ) (m : NanoMap) (key : Key) (value : ℕ)
    (hwf : MapWF m) :
    (nm_set gseed SetAllocs.all m key value).1 = .ok ∧
    MapWF (nm_set gseed SetAllocs.all m key value).2 ∧
    nm_find_entry (nm_set gseed SetAllocs.all m key value).2 key
      = some (key, value) ∧
    (nm_set gseed SetAllocs.all m key value).2.bucket_count ≠ 0 := by
  by_cases hbc : m.bucket_count = 0
  · rw [nm_set_lazy gseed SetAllocs.all m key value hbc rfl]
    obtain ⟨h1, h2, h3, h4, -⟩ := nm_set_char_bc_ne gseed SetAllocs.all
      (freshMap gseed) key value (mapWF_freshMap gseed)
      (by simp [freshMap]) rfl rfl
    exact ⟨h1, h2, h3, by rw [h4]; simp [freshMap]⟩
  · obtain ⟨h1, h2, h3, h4, -⟩ := nm_set_char_bc_ne gseed SetAllocs.all
      m key value hwf hbc rfl rfl
    exact ⟨h1, h2, h3, by rw [h4]; exact hbc⟩

theorem nm_get_of_find {m : NanoMap} {key : Key} {e : MapEntry}
    (h : nm_find_entry m key = some e) : nm_get m key = e.2 := by
  rw [nm_get, h]

theorem nm_get_of_find_none {m : NanoMap} {key : Key}
    (h : nm_find_entry m key = none) : nm_get m key = 0 := by
  rw [nm_get, h]

theorem nm_has_of_find_none {m : NanoMap} {key : Key}
    (h : nm_find_entry m key = none) : nm_has m key = false := by
  rw [nm_has, h]
  rfl

/-- The keys stored in one chain of a well-formed map are pairwise
distinct. -/
theorem chain_keys_nodup {m : NanoMap} (i : ℕ)
    (hnd : (allKeys m).Nodup) :
    ((m.buckets.getD i []).map Prod.fst).Nodup := by
  rcases Nat.lt_or_ge i m.buckets.length with hi | hi
  · have hmem : m.buckets.getD i [] ∈ m.buckets := by
      rw [getD_eq_getElem_of_lt _ _ hi]
      exact List.getElem_mem hi
    have hsub : ((m.buckets.getD i []).map Prod.fst).Sublist (allKeys m) := by
      rw [allKeys, allEntries, List.map_flatten]
      exact List.sublist_flatten_of_mem
        (List.mem_map.mpr ⟨_, hmem, rfl⟩)
    exact hsub.nodup hnd
  · rw [List.getD_eq_getElem?_getD, List.getElem?_eq_none hi]
    exact List.nodup_nil

/-- Full characterization of `nm_remove` on a well-formed map: removing
a present key succeeds, decrements the size and makes the key
unfindable; removing an absent key reports NotFound and returns the map
unchanged. -/
theorem nm_remove_char (m : NanoMap) (key : Key) (hwf : MapWF m) :
    (key ∈ allKeys m →
       (nm_remove m key).1 = .ok ∧
       MapWF (nm_remove m key).2 ∧
       (nm_remove m key).2.size + 1 = m.size ∧
       nm_find_entry (nm_remove m key).2 key = none ∧
       (allKeys (nm_remove m key).2).Sublist (allKeys m)) ∧
    (key ∉ allKeys m → nm_remove m key = (.notfound, m)) := by
  obtain ⟨hlen, hsize, hnd, hbok⟩ := hwf
  constructor
  · intro hk
    have hbc : m.bucket_count ≠ 0 := by
      intro h0
      have hnil : m.buckets = [] := List.length_eq_zero.mp (by omega)
      rw [allKeys, allEntries, hnil] at hk
      exact absurd hk (by simp)
    have hbpos : 0 < m.bucket_count := Nat.pos_of_ne_zero hbc
    have hidx : nm_bucket_idx m key < m.buckets.length := by
      rw [hlen]
      exact Nat.mod_lt _ hbpos
    have hfs : ∃ e, nm_find_entry m key = some e := by
      rcases hf : nm_find_entry m key with - | e
      · exact absurd ((find_entry_none_iff key ⟨hlen, hsize, hnd, hbok⟩).mp hf) (by simpa using hk)
      · exact ⟨e, rfl⟩
    obtain ⟨e, hf⟩ := hfs
    have hcf : chainFind key (m.buckets.getD (nm_bucket_idx m key) [])
        = some e := by
      rw [nm_find_entry, if_neg hbc] at hf
      exact hf
    have hkc : key ∈ (m.buckets.getD (nm_bucket_idx m key) []).map Prod.fst := by
      have := chainFind_key hcf
      exact List.mem_map.mpr ⟨e, chainFind_mem hcf, this⟩
    have hcr : ∃ c', chainRemove key (m.buckets.getD (nm_bucket_idx m key) [])
        = some c' := by
      rcases hr : chainRemove key (m.buckets.getD (nm_bucket_idx m key) [])
        with - | c'
      · exact absurd (chainRemove_eq_none.mp hr) (by simpa using hkc)
      · exact ⟨c', rfl⟩
    obtain ⟨c', hcr⟩ := hcr
    have hclen := chainRemove_length hcr
    have hcsub := chainRemove_sublist hcr
    have hcnd := chain_keys_nodup (nm_bucket_idx m key) hnd
    have hAE : allEntries m
        = (m.buckets.take (nm_bucket_idx m key)).flatten
          ++ m.buckets.getD (nm_bucket_idx m key) []
          ++ (m.buckets.drop (nm_bucket_idx m key + 1)).flatten := by
      rw [getD_eq_getElem_of_lt _ _ hidx]
      exact flatten_decomp m.buckets _ hidx
    have hspos : 1 ≤ m.size := by
      rw [hsize, hAE]
      have : 0 < (m.buckets.getD (nm_bucket_idx m key) []).length :=
        List.length_pos.mpr (by
          intro hnil
          rw [hnil] at hkc
          exact absurd hkc (by simp))
      simp only [List.length_append]
      omega
    have heq : nm_remove m key
        = (.ok, { m with buckets := m.buckets.set (nm_bucket_idx m key) c',
                         size := m.size - 1 }) := by
      rw [nm_remove, if_neg hbc]
      simp only [hcr]
    rw [heq]
    have hAE' : allEntries { m with
          buckets := m.buckets.set (nm_bucket_idx m key) c',
          size := m.size - 1 }
        = (m.buckets.take (nm_bucket_idx m key)).flatten
          ++ c'
          ++ (m.buckets.drop (nm_bucket_idx m key + 1)).flatten :=
      flatten_set m.buckets _ _ hidx
    refine ⟨rfl, ⟨?_, ?_, ?_, ?_⟩, ?_, ?_, ?_⟩
    · show (m.buckets.set _ _).length = m.bucket_count
      rw [List.length_set, hlen]
    · show m.size - 1 = (allEntries _).length
      rw [hAE', hsize, hAE]
      simp only [List.length_append]
      omega
    · show (allKeys _).Nodup
      have h2 : allKeys { m with
            buckets := m.buckets.set (nm_bucket_idx m key) c',
            size := m.size - 1 }
          = ((m.buckets.take (nm_bucket_idx m key)).flatten).map Prod.fst
            ++ c'.map Prod.fst
            ++ ((m.buckets.drop (nm_bucket_idx m key + 1)).flatten).map Prod.fst := by
        rw [allKeys, hAE']
        simp [List.map_append]
      have hAK : allKeys m
          = ((m.buckets.take (nm_bucket_idx m key)).flatten).map Prod.fst
            ++ (m.buckets.getD (nm_bucket_idx m key) []).map Prod.fst
            ++ ((m.buckets.drop (nm_bucket_idx m key + 1)).flatten).map Prod.fst := by
        rw [allKeys, hAE]
        simp [List.map_append]
      rw [h2]
      refine List.Nodup.sublist ?_ (hAK ▸ hnd)
      exact ((List.Sublist.refl _).append
        (hcsub.map Prod.fst)).append (List.Sublist.refl _)
    · intro i hi e' he'
      rw [List.length_set] at hi
      have hb_eq : nm_bucket_idx { m with
            buckets := m.buckets.set (nm_bucket_idx m key) c',
            size := m.size - 1 } e'.1 = nm_bucket_idx m e'.1 := rfl
      rw [hb_eq]
      by_cases hieq : i = nm_bucket_idx m key
      · subst hieq
        rw [show ({ m with
              buckets := m.buckets.set (nm_bucket_idx m key) c',
              size := m.size - 1 } : NanoMap).buckets
            = m.buckets.set (nm_bucket_idx m key) c' from rfl,
          getD_set_self_list _ _ _ hidx] at he'
        exact hbok _ hidx e' (hcsub.subset he')
      · rw [show ({ m with
              buckets := m.buckets.set (nm_bucket_idx m key) c',
              size := m.size - 1 } : NanoMap).buckets
            = m.buckets.set (nm_bucket_idx m key) c' from rfl,
          getD_set_ne_list _ _ _ _ (fun h => hieq h.symm)] at he'
        exact hbok i hi e' he'
    · show m.size - 1 + 1 = m.size
      omega
    · show nm_find_entry _ key = none
      rw [nm_find_entry,
        if_neg (show ¬({ m with
              buckets := m.buckets.set (nm_bucket_idx m key) c',
              size := m.size - 1 } : NanoMap).bucket_count = 0 from hbc),
        show nm_bucket_idx { m with
              buckets := m.buckets.set (nm_bucket_idx m key) c',
              size := m.size - 1 } key = nm_bucket_idx m key from rfl,
        show ({ m with
              buckets := m.buckets.set (nm_bucket_idx m key) c',
              size := m.size - 1 } : NanoMap).buckets
            = m.buckets.set (nm_bucket_idx m key) c' from rfl,
        getD_set_self_list _ _ _ hidx]
      exact chainFind_eq_none.mpr (chainRemove_not_mem hcnd hcr)
    · show (allKeys _).Sublist (allKeys m)
      have h2 : allKeys { m with
            buckets := m.buckets.set (nm_bucket_idx m key) c',
            size := m.size - 1 }
          = ((m.buckets.take (nm_bucket_idx m key)).flatten).map Prod.fst
            ++ c'.map Prod.fst
            ++ ((m.buckets.drop (nm_bucket_idx m key + 1)).flatten).map Prod.fst := by
        rw [allKeys, hAE']
        simp [List.map_append]
      have hAK : allKeys m
          = ((m.buckets.take (nm_bucket_idx m key)).flatten).map Prod.fst
            ++ (m.buckets.getD (nm_bucket_idx m key) []).map Prod.fst
            ++ ((m.buckets.drop (nm_bucket_idx m key + 1)).flatten).map Prod.fst := by
        rw [allKeys, hAE]
        simp [List.map_append]
      rw [h2, hAK]
      exact ((List.Sublist.refl _).append
        (hcsub.map Prod.fst)).append (List.Sublist.refl _)
  · intro hk
    by_cases hbc : m.bucket_count = 0
    · rw [nm_remove, if_pos hbc]
    · have hkc : key ∉ (m.buckets.getD (nm_bucket_idx m key) []).map Prod.fst := by
        intro hc
        apply hk
        obtain ⟨e, hec, hek⟩ := List.mem_map.mp hc
        exact List.mem_map.mpr
          ⟨e, chain_subset_allEntries (nm_bucket_idx m key) hec, hek⟩
      rw [nm_remove, if_neg hbc]
      simp only [chainRemove_eq_none.mpr hkc]

/-- `nm_set` with arbitrary allocation outcomes, on a bucketed map:
well-formedness is preserved and at most the given key is introduced. -/
theorem nm_set_any_bc_ne (gseed : ℕ) (ap : SetAllocs) (m : NanoMap)
    (key : Key) (value : ℕ) (hwf : MapWF m) (hbc : m.bucket_count ≠ 0) :
    MapWF (nm_set gseed ap m key value).2 ∧
    (∀ x ∈ allKeys (nm_set gseed ap m key value).2,
      x ∈ allKeys m ∨ x = key) := by
  rcases hfind : nm_find_entry m key with - | e
  · cases hae : ap.entryOk
    · have heq : nm_set gseed ap m key value = (.nomem, m) := by
        rw [nm_set_bc_ne gseed ap m key value hbc]
        simp only [hfind, hae, Bool.not_false, if_pos]
      rw [heq]
      exact ⟨hwf, fun x hx => Or.inl hx⟩
    · cases hak : ap.keyOk
      · have heq : nm_set gseed ap m key value = (.nomem, m) := by
          rw [nm_set_bc_ne gseed ap m key value hbc]
          simp only [hfind, hae, hak, Bool.not_true, Bool.not_false,
            Bool.false_eq_true, if_false, if_pos]
        rw [heq]
        exact ⟨hwf, fun x hx => Or.inl hx⟩
      · obtain ⟨-, hwf', -, -, -, -, -, hmono⟩ :=
          nm_set_char_bc_ne gseed ap m key value hwf hbc hae hak
        exact ⟨hwf', hmono⟩
  · have hswap : nm_set gseed ap m key value
        = nm_set gseed SetAllocs.all m key value := by
      rw [nm_set_bc_ne gseed ap m key value hbc,
        nm_set_bc_ne gseed SetAllocs.all m key value hbc]
      simp only [hfind]
    rw [hswap]
    obtain ⟨-, hwf', -, -, -, -, -, hmono⟩ :=
      nm_set_char_bc_ne gseed SetAllocs.all m key value hwf hbc rfl rfl
    exact ⟨hwf', hmono⟩

/-- `nm_set` with arbitrary allocation outcomes, on any well-formed
map. -/
theorem nm_set_any (gseed : ℕ) (ap : SetAllocs) (m : NanoMap) (key : Key)
    (value : ℕ) (hwf : MapWF m) :
    MapWF (nm_set gseed ap m key value).2 ∧
    (∀ x ∈ allKeys (nm_set gseed ap m key value).2,
      x ∈ allKeys m ∨ x = key) := by
  by_cases hbc : m.bucket_count = 0
  · cases hb : ap.bucketsOk
    · rw [nm_set_lazy_nomem gseed ap m key value hbc hb]
      exact ⟨hwf, fun x hx => Or.inl hx⟩
    · rw [nm_set_lazy gseed ap m key value hbc hb]
      obtain ⟨hwf', hmono⟩ := nm_set_any_bc_ne gseed ap (freshMap gseed)
        key value (mapWF_freshMap gseed) (by simp [freshMap])
      refine ⟨hwf', fun x hx => ?_⟩
      rcases hmono x hx with h1 | h1
      · exact absurd h1 (by simp [freshMap, allKeys, allEntries])
      · exact Or.inr h1
  · exact nm_set_any_bc_ne gseed ap m key value hwf hbc

/-- `nm_remove` preserves well-formedness and never adds keys. -/
theorem nm_remove_any (m : NanoMap) (key : Key) (hwf : MapWF m) :
    MapWF (nm_remove m key).2 ∧
    (∀ x ∈ allKeys (nm_remove m key).2, x ∈ allKeys m) := by
  by_cases hk : key ∈ allKeys m
  · obtain ⟨-, hwf', -, -, hsub⟩ := (nm_remove_char m key hwf).1 hk
    exact ⟨hwf', fun x hx => hsub.subset hx⟩
  · rw [(nm_remove_char m key hwf).2 hk]
    exact ⟨hwf, fun x hx => hx⟩

/-- Over any history of map operations, well-formedness is preserved and
a key never passed to `nm_set` never becomes stored. -/
theorem runMapOps_wf_not_mem (gseed : ℕ) (ops : List MapOp) :
    ∀ (m : NanoMap), MapWF m → ∀ k, k ∉ allKeys m → k ∉ setKeys ops →
      MapWF (runMapOps gseed m ops) ∧
      k ∉ allKeys (runMapOps gseed m ops) := by
  induction ops with
  | nil =>
      intro m hwf k hk _
      exact ⟨hwf, hk⟩
  | cons op ops ih =>
      intro m hwf k hk hsk
      cases op with
      | set ap key v =>
          have hne : k ≠ key ∧ k ∉ setKeys ops := by
            rw [setKeys] at hsk
            exact ⟨fun h => hsk (h ▸ List.mem_cons_self _ _),
              fun h => hsk (List.mem_cons_of_mem _ h)⟩
          obtain ⟨hwf', hmono⟩ := nm_set_any gseed ap m key v hwf
          have hk' : k ∉ allKeys (nm_set gseed ap m key v).2 := by
            intro hx
            rcases hmono k hx with h1 | h1
            · exact hk h1
            · exact hne.1 h1
          exact ih _ hwf' k hk' hne.2
      | remove key =>
          obtain ⟨hwf', hmono⟩ := nm_remove_any m key hwf
          have hk' : k ∉ allKeys (nm_remove m key).2 :=
            fun hx => hk (hmono k hx)
          have hsk' : k ∉ setKeys ops := by
            rw [setKeys] at hsk
            exact hsk
          exact ih _ hwf' k hk' hsk'

/-- **C5**: for every well-formed map, non-null key and value:
after `nm_set(k, v)`, `nm_get(k)` returns `v`; `nm_has` on a key never
passed to `nm_set` (over any operation history from a fresh map) is
false; setting the same key twice overwrites instead of duplicating —
`nm_get` returns the second value, the second set leaves `size`
unchanged, and the key occurs in exactly one chain entry; `nm_remove` on
a present key returns Ok, decrements `size` by one and makes a
subsequent `nm_get` a miss; `nm_remove` on an absent key returns
NotFound and leaves the map unchanged. -/
theorem map_set_get_has_remove (gseed : ℕ) (m : NanoMap) (key k : Key)
    (v1 v2 : ℕ) (ops : List MapOp) (hwf : MapWF m) :
    ((nm_set gseed SetAllocs.all m key v1).1 = .ok ∧
     nm_get (nm_set gseed SetAllocs.all m key v1).2 key = v1) ∧
    (k ∉ setKeys ops →
      nm_has (runMapOps gseed (nm_init gseed) ops) k = false) ∧
    (nm_get (nm_set gseed SetAllocs.all
        (nm_set gseed SetAllocs.all m key v1).2 key v2).2 key = v2 ∧
     (nm_set gseed SetAllocs.all
        (nm_set gseed SetAllocs.all m key v1).2 key v2).2.size
       = (nm_set gseed SetAllocs.all m key v1).2.size ∧
     (∃ l1 l2, allKeys (nm_set gseed SetAllocs.all
          (nm_set gseed SetAllocs.all m key v1).2 key v2).2
        = l1 ++ key :: l2 ∧ key ∉ l1 ++ l2)) ∧
    (key ∈ allKeys m →
      (nm_remove m key).1 = .ok ∧
      (nm_remove m key).2.size + 1 = m.size ∧
      nm_get (nm_remove m key).2 key = 0 ∧
      nm_has (nm_remove m key).2 key = false) ∧
    (key ∉ allKeys m → nm_remove m key = (.notfound, m)) := by
  obtain ⟨hok1, hwf1, hfind1, hbc1⟩ := nm_set_all_char gseed m key v1 hwf
  refine ⟨⟨hok1, nm_get_of_find hfind1⟩, ?_, ?_, ?_, (nm_remove_char m key hwf).2⟩
  · intro hsk
    obtain ⟨hwfF, hnm⟩ := runMapOps_wf_not_mem gseed ops (nm_init gseed)
      (mapWF_nm_init gseed) k (by simp [nm_init, allKeys, allEntries]) hsk
    exact nm_has_of_find_none ((find_entry_none_iff k hwfF).mpr hnm)
  · obtain ⟨hok2, hwf2, hfind2, -⟩ :=
      nm_set_all_char gseed (nm_set gseed SetAllocs.all m key v1).2 key v2 hwf1
    obtain ⟨-, -, -, -, -, hsz, -, -⟩ :=
      nm_set_char_bc_ne gseed SetAllocs.all
        (nm_set gseed SetAllocs.all m key v1).2 key v2 hwf1 hbc1 rfl rfl
    refine ⟨nm_get_of_find hfind2, hsz (by rw [hfind1]; rfl), ?_⟩
    obtain ⟨hment, hfst⟩ := find_entry_mem_keys hfind2
    have hmem : key ∈ allKeys (nm_set gseed SetAllocs.all
        (nm_set gseed SetAllocs.all m key v1).2 key v2).2 :=
      List.mem_map.mpr ⟨_, hment, hfst⟩
    obtain ⟨l1, l2, hsplit⟩ := List.append_of_mem hmem
    refine ⟨l1, l2, hsplit, ?_⟩
    have hnd2 := hwf2.2.2.1
    rw [hsplit, List.nodup_middle, List.nodup_cons] at hnd2
    exact hnd2.1
  · intro hk
    obtain ⟨hok, -, hsz, hfn, -⟩ := (nm_remove_char m key hwf).1 hk
    exact ⟨hok, hsz, nm_get_of_find_none hfn, nm_has_of_find_none hfn⟩

/-- Witness for C5 at concrete inputs. -/
theorem map_set_get_has_remove_witness :
    nm_get (nm_set 0 SetAllocs.all (nm_init 0) [97] 5).2 [97] = 5 ∧
    nm_has (runMapOps 0 (nm_init 0) [MapOp.set SetAllocs.all [97] 1]) [98]
      = false ∧
    nm_get (nm_set 0 SetAllocs.all
      (nm_set 0 SetAllocs.all (nm_init 0) [97] 1).2 [97] 2).2 [97] = 2 ∧
    (nm_set 0 SetAllocs.all
      (nm_set 0 SetAllocs.all (nm_init 0) [97] 1).2 [97] 2).2.size = 1 ∧
    (nm_remove (nm_set 0 SetAllocs.all (nm_init 0) [97] 5).2 [97]).1 = .ok ∧
    nm_get (nm_remove (nm_set 0 SetAllocs.all (nm_init 0) [97] 5).2 [97]).2 [97]
      = 0 ∧
    nm_remove (nm_init 0) [97] = (.notfound, nm_init 0) := by
  have h1 := map_set_get_has_remove 0 (nm_init 0) [97] [98] 5 0
    [MapOp.set SetAllocs.all [97] 1] (by decide)
  have h2 := map_set_get_has_remove 0 (nm_init 0) [97] [98] 1 2 [] (by decide)
  have h3 := map_set_get_has_remove 0
    (nm_set 0 SetAllocs.all (nm_init 0) [97] 5).2 [97] [98] 1 2 [] (by decide)
  refine ⟨h1.1.2, h1.2.1 (by decide), h2.2.2.1.1, ?_, ?_, ?_,
    h1.2.2.2.2 (by decide)⟩
  · rw [h2.2.2.1.2.1]
    decide
  · exact (h3.2.2.2.1 (by decide)).1
  · exact (h3.2.2.2.1 (by decide)).2.2.1

theorem nv_reserve_fail_unchanged {T : Type} [Inhabited T] (sizeofT : ℕ)
    (allocOk : Bool) (vec : NanoVector T) (n : ℕ)
    (h : (nv_reserve sizeofT allocOk vec n).1 ≠ .ok) :
    (nv_reserve sizeofT allocOk vec n).2 = vec := by
  rw [nv_reserve] at h ⊢
  split_ifs at h ⊢ <;> simp_all

theorem nv_push_fail_unchanged {T : Type} [Inhabited T] (sizeofT : ℕ)
    (allocOk : Bool) (vec : NanoVector T) (v : T)
    (h : (nv_push sizeofT allocOk vec v).1 ≠ .ok) :
    (nv_push sizeofT allocOk vec v).2 = vec := by
  by_cases hfull : vec.size ≥ vec.capacity
  · by_cases hwrap : nv_push_growth vec.capacity < vec.capacity
    · rw [nv_push, if_pos hfull]
      simp only [if_pos hwrap]
    · rcases hr : nv_reserve sizeofT allocOk vec (nv_push_growth vec.capacity)
        with ⟨e, v'⟩
      rw [nv_push, if_pos hfull] at h ⊢
      simp only [if_neg hwrap, hr] at h ⊢
      cases e
      · exact absurd rfl h
      all_goals
        have hres := nv_reserve_fail_unchanged sizeofT allocOk vec
          (nv_push_growth vec.capacity) (by rw [hr]; simp)
        rw [hr] at hres
        exact hres
  · rw [nv_push, if_neg hfull] at h
    exact absurd rfl h

/-- **C3** counterexample: `nm_set` on a map with `bucket_count == 0`
whose lazy bucket allocation succeeds but whose chain-node allocation
fails returns OutOfMemory, yet the map is not what it was before the
call: its `bucket_count` has become 16. -/
theorem nm_set_partial_mutation_cex :
    (nm_set 0 ⟨true, false, true⟩ (nm_init 0) [97] 1).1 = .nomem ∧
    (nm_set 0 ⟨true, false, true⟩ (nm_init 0) [97] 1).2 ≠ nm_init 0 ∧
    (nm_set 0 ⟨true, false, true⟩ (nm_init 0) [97] 1).2.bucket_count = 16 ∧
    (nm_init 0).bucket_count = 0 := by decide

/-- **C3** (amended): every fallible mutating operation of every
container returns its container unchanged whenever it fails — except
`nm_set` on a map with `bucket_count == 0`, where a failure after the
successful lazy bucket allocation leaves the freshly initialized empty
16-bucket map (still holding no entries) instead of the original
state. -/
theorem mutations_all_or_nothing {T : Type} [Inhabited T] (sizeofT : ℕ)
    (allocOk : Bool) (vec : NanoVector T) (n i : ℕ) (v : T)
    (l : NanoList T) (l2 : NanoList2 T) (r : NanoRing T)
    (gseed : ℕ) (ap : SetAllocs) (m : NanoMap) (key : Key) (val : ℕ) :
    ((nv_reserve sizeofT allocOk vec n).1 ≠ .ok →
      (nv_reserve sizeofT allocOk vec n).2 = vec) ∧
    ((nv_push sizeofT allocOk vec v).1 ≠ .ok →
      (nv_push sizeofT allocOk vec v).2 = vec) ∧
    ((nv_set vec i v).1 ≠ .ok → (nv_set vec i v).2 = vec) ∧
    ((nv_pop false vec).1 ≠ .ok → (nv_pop false vec).2.2 = vec) ∧
    ((nl_push_front allocOk l v).1 ≠ .ok →
      (nl_push_front allocOk l v).2 = l) ∧
    ((nl_push_back allocOk l v).1 ≠ .ok →
      (nl_push_back allocOk l v).2 = l) ∧
    ((nl_pop_front false l).1 ≠ .ok → (nl_pop_front false l).2.2 = l) ∧
    ((nl2_push_front allocOk l2 v).1 ≠ .ok →
      (nl2_push_front allocOk l2 v).2 = l2) ∧
    ((nl2_push_back allocOk l2 v).1 ≠ .ok →
      (nl2_push_back allocOk l2 v).2 = l2) ∧
    ((nl2_pop_front false l2).1 ≠ .ok → (nl2_pop_front false l2).2.2 = l2) ∧
    ((nl2_pop_back false l2).1 ≠ .ok → (nl2_pop_back false l2).2.2 = l2) ∧
    ((nr_write r v).1 ≠ .ok → (nr_write r v).2 = r) ∧
    ((nr_read r).1 ≠ .ok → (nr_read r).2.2 = r) ∧
    ((nm_remove m key).1 ≠ .ok → (nm_remove m key).2 = m) ∧
    ((nm_set gseed ap m key val).1 ≠ .ok →
      ((nm_set gseed ap m key val).2 = m ∨
       (m.bucket_count = 0 ∧ (nm_set gseed ap m key val).2 = freshMap gseed))) := by
  refine ⟨nv_reserve_fail_unchanged sizeofT allocOk vec n,
    nv_push_fail_unchanged sizeofT allocOk vec v,
    ?_, ?_, ?_, ?_, ?_, ?_, ?_, ?_, ?_, ?_, ?_, ?_, ?_⟩
  · rw [nv_set]
    split_ifs <;> simp
  · rw [nv_pop]
    split_ifs <;> simp
  · rw [nl_push_front]
    split_ifs <;> simp
  · rw [nl_push_back]
    split_ifs <;> simp
  · rw [nl_pop_front]
    split_ifs <;> simp
  · rw [nl2_push_front]
    split_ifs <;> simp
  · rw [nl2_push_back]
    split_ifs <;> simp
  · rw [nl2_pop_front]
    split_ifs <;> simp
  · rw [nl2_pop_back]
    split_ifs <;> simp
  · rw [nr_write]
    split_ifs <;> simp
  · rw [nr_read]
    split_ifs <;> simp
  · intro h
    rw [nm_remove] at h ⊢
    split_ifs at h ⊢
    · rfl
    · rcases hr : chainRemove key (m.buckets.getD (nm_bucket_idx m key) [])
        with - | c'
      · simp only [hr]
      · simp only [hr] at h
        exact absurd rfl h
  · intro h
    by_cases hbc : m.bucket_count = 0
    · cases hb : ap.bucketsOk
      · rw [nm_set_lazy_nomem gseed ap m key val hbc hb]
        exact Or.inl rfl
      · rw [nm_set_lazy gseed ap m key val hbc hb] at h ⊢
        right
        refine ⟨hbc, ?_⟩
        rcases hf : nm_find_entry (freshMap gseed) key with - | e
        · cases hae : ap.entryOk
          · have heq : nm_set gseed ap (freshMap gseed) key val
                = (.nomem, freshMap gseed) := by
              rw [nm_set_bc_ne gseed ap (freshMap gseed) key val
                (by simp [freshMap])]
              simp only [hf, hae, Bool.not_false, if_pos]
            rw [heq]
          · cases hak : ap.keyOk
            · have heq : nm_set gseed ap (freshMap gseed) key val
                  = (.nomem, freshMap gseed) := by
                rw [nm_set_bc_ne gseed ap (freshMap gseed) key val
                  (by simp [freshMap])]
                simp only [hf, hae, hak, Bool.not_true, Bool.not_false,
                  Bool.false_eq_true, if_false, if_pos]
              rw [heq]
            · have heq : (nm_set gseed ap (freshMap gseed) key val).1 = .ok := by
                obtain ⟨h1, -⟩ := nm_set_char_bc_ne gseed ap (freshMap gseed)
                  key val (mapWF_freshMap gseed) (by simp [freshMap]) hae hak
                exact h1
              exact absurd heq h
        · have heq : (nm_set gseed ap (freshMap gseed) key val).1 = .ok := by
            rw [nm_set_bc_ne gseed ap (freshMap gseed) key val
              (by simp [freshMap])]
            simp only [hf]
          exact absurd heq h
    · left
      rcases hf : nm_find_entry m key with - | e
      · cases hae : ap.entryOk
        · have heq : nm_set gseed ap m key val = (.nomem, m) := by
            rw [nm_set_bc_ne gseed ap m key val hbc]
            simp only [hf, hae, Bool.not_false, if_pos]
          rw [heq]
        · cases hak : ap.keyOk
          · have heq : nm_set gseed ap m key val = (.nomem, m) := by
              rw [nm_set_bc_ne gseed ap m key val hbc]
              simp only [hf, hae, hak, Bool.not_true, Bool.not_false,
                Bool.false_eq_true, if_false, if_pos]
            rw [heq]
          · have heq : (nm_set gseed ap m key val).1 = .ok := by
              rw [nm_set_bc_ne gseed ap m key val hbc]
              simp only [hf, hae, hak, Bool.not_true, Bool.false_eq_true,
                if_false]
            exact absurd heq h
      · have heq : (nm_set gseed ap m key val).1 = .ok := by
          rw [nm_set_bc_ne gseed ap m key val hbc]
          simp only [hf]
        exact absurd heq h

/-- Witness for the amended C3 at concrete inputs. -/
theorem mutations_all_or_nothing_witness :
    (nv_reserve 4 false (nv_init ℕ) 4).2 = nv_init ℕ ∧
    (nv_pop false (nv_init ℕ)).2.2 = nv_init ℕ ∧
    (nr_write (nrWriteAll (nr_init ℕ 1) [7]) 8).2 = nrWriteAll (nr_init ℕ 1) [7] ∧
    (nm_remove (nm_init 0) [97]).2 = nm_init 0 ∧
    ((nm_set 0 ⟨true, false, true⟩ (nm_init 0) [97] 1).2 = nm_init 0 ∨
     ((nm_init 0).bucket_count = 0 ∧
      (nm_set 0 ⟨true, false, true⟩ (nm_init 0) [97] 1).2 = freshMap 0)) := by
  have h := mutations_all_or_nothing 4 false (nv_init ℕ) 4 0 (7 : ℕ)
    (nl_init ℕ) (nl2_init ℕ) (nrWriteAll (nr_init ℕ 1) [7]) 0
    ⟨true, false, true⟩ (nm_init 0) [97] 1
  exact ⟨h.1 (by decide), h.2.2.2.1 (by decide),
    h.2.2.2.2.2.2.2.2.2.2.2.1 (by decide),
    h.2.2.2.2.2.2.2.2.2.2.2.2.2.1 (by decide),
    h.2.2.2.2.2.2.2.2.2.2.2.2.2.2 (by decide)⟩

/-! ## Hash reference definition (claim C4). -/

/-- The seeded FNV-1a reference, written from the specification's words:
the accumulator starts at `2166136261 XOR seed` and is updated per input
byte, in order, to `(accumulator XOR byte) * 16777619 mod 2^32`. -/
def fnv1aSpecStep (acc : ℕ) : Key → ℕ
  | [] => acc
  | b :: bs => fnv1aSpecStep ((acc ^^^ b % 256) * 16777619 % 2 ^ 32) bs

/-- Seeded FNV-1a per the specification. -/
def fnv1aSpecRef (key : Key) (seed : ℕ) : ℕ :=
  fnv1aSpecStep (2166136261 ^^^ seed) key

theorem fnv1aSpecStep_foldl (key : Key) :
    ∀ acc : ℕ,
      key.foldl (fun hash b => (hash ^^^ b % 256) * 16777619 % U32) acc
        = fnv1aSpecStep acc key := by
  induction key with
  | nil => intro acc; rfl
  | cons b bs ih =>
      intro acc
      rw [List.foldl_cons, fnv1aSpecStep, ih]
      rfl

/-- **C4**: for every key and 32-bit seed, the map's hash equals the
seeded FNV-1a reference definition, and the bucket index consulted by
`nm_find_entry` (hence `nm_get`/`nm_has`) and mutated by
`nm_set`/`nm_remove` is that hash modulo `bucket_count`. -/
theorem map_hash_is_seeded_fnv1a (key : Key) (seed gseed : ℕ) (m : NanoMap)
    (val : ℕ) (j : ℕ) (hs : seed < 2 ^ 32) (hms : m.seed < 2 ^ 32) :
    nanods_fnv1a_hash_seeded key seed = fnv1aSpecRef key seed ∧
    (m.bucket_count ≠ 0 →
      nm_bucket_idx m key = fnv1aSpecRef key m.seed % m.bucket_count ∧
      nm_find_entry m key
        = chainFind key
            (m.buckets.getD (fnv1aSpecRef key m.seed % m.bucket_count) []) ∧
      nm_get m key
        = (match chainFind key
              (m.buckets.getD (fnv1aSpecRef key m.seed % m.bucket_count) []) with
           | some e => e.2
           | none => 0) ∧
      nm_has m key
        = (chainFind key
            (m.buckets.getD (fnv1aSpecRef key m.seed % m.bucket_count) [])).isSome ∧
      (j ≠ fnv1aSpecRef key m.seed % m.bucket_count →
        (nm_remove m key).2.buckets.getD j [] = m.buckets.getD j [] ∧
        (nm_set gseed SetAllocs.all m key val).2.buckets.getD j []
          = m.buckets.getD j [])) := by
  have hxlt : 2166136261 ^^^ seed < 2 ^ 32 :=
    Nat.xor_lt_two_pow (by norm_num) hs
  have hhash : ∀ s, s < 2 ^ 32 →
      nanods_fnv1a_hash_seeded key s = fnv1aSpecRef key s := by
    intro s hslt
    rw [nanods_fnv1a_hash_seeded, fnv1aSpecRef,
      Nat.mod_eq_of_lt (show 2166136261 ^^^ s < U32 from
        Nat.xor_lt_two_pow (by norm_num) hslt)]
    exact fnv1aSpecStep_foldl key _
  have hidx : m.bucket_count ≠ 0 →
      nm_bucket_idx m key = fnv1aSpecRef key m.seed % m.bucket_count := by
    intro _
    rw [nm_bucket_idx, hhash m.seed hms]
  refine ⟨hhash seed hs, fun hbc => ⟨hidx hbc, ?_, ?_, ?_, fun hj => ⟨?_, ?_⟩⟩⟩
  · rw [nm_find_entry, if_neg hbc, hidx hbc]
  · rw [nm_get, nm_find_entry, if_neg hbc, hidx hbc]
  · rw [nm_has, nm_find_entry, if_neg hbc, hidx hbc]
  · rw [nm_remove, if_neg hbc]
    rcases hr : chainRemove key (m.buckets.getD (nm_bucket_idx m key) [])
      with - | c'
    · simp only [hr]
    · simp only [hr]
      exact getD_set_ne_list _ _ _ _ (fun h => hj ((hidx hbc) ▸ h.symm))
  · rw [nm_set_bc_ne gseed SetAllocs.all m key val hbc]
    rcases hf : nm_find_entry m key with - | e
    · simp only
      exact getD_set_ne_list _ _ _ _ (fun h => hj ((hidx hbc) ▸ h.symm))
    · simp only
      exact getD_set_ne_list _ _ _ _ (fun h => hj ((hidx hbc) ▸ h.symm))

/-- Witness for C4 at concrete inputs. -/
theorem map_hash_is_seeded_fnv1a_witness :
    nanods_fnv1a_hash_seeded [97] 0 = fnv1aSpecRef [97] 0 ∧
    nm_bucket_idx (nm_set 0 SetAllocs.all (nm_init 0) [97] 1).2 [97]
      = fnv1aSpecRef [97] 0 % 16 := by
  have h := map_hash_is_seeded_fnv1a [97] 0 0
    (nm_set 0 SetAllocs.all (nm_init 0) [97] 1).2 1 0
    (by norm_num) (by decide)
  exact ⟨h.1, (h.2 (by decide)).1⟩

/-- **C9** counterexample: `nm_get` signals absence with the null
pointer, which is indistinguishable from a stored null value — the key
`[107]` is present (with value `NULL`), the key `[106]` is absent, yet
`nm_get` returns the same result for both. -/
theorem nm_get_null_sentinel_cex :
    nm_has (nm_set 0 SetAllocs.all (nm_init 0) [107] 0).2 [107] = true ∧
    nm_has (nm_set 0 SetAllocs.all (nm_init 0) [107] 0).2 [106] = false ∧
    nm_get (nm_set 0 SetAllocs.all (nm_init 0) [107] 0).2 [107]
      = nm_get (nm_set 0 SetAllocs.all (nm_init 0) [107] 0).2 [106] := by
  decide

/-- **C9** (amended): in the hardened build every fallible operation
reports failure through the closed set of error codes
`{0, -1, ..., -7}`; `nm_get`, however, returns the stored `void*` or the
null pointer for a miss, so it distinguishes an absent key from a
present one exactly when no stored value is the null pointer. -/
theorem error_codes_closed_get_sentinel (m : NanoMap) (key : Key) :
    (∀ e : Err, errCode e ∈ ([0, -1, -2, -3, -4, -5, -6, -7] : List ℤ)) ∧
    (nm_find_entry m key = none → nm_get m key = 0) ∧
    ((∀ e ∈ allEntries m, e.2 ≠ 0) →
      (nm_get m key = 0 ↔ nm_find_entry m key = none)) := by
  refine ⟨fun e => by cases e <;> simp [errCode], nm_get_of_find_none, ?_⟩
  intro hnz
  constructor
  · intro hg
    rcases hf : nm_find_entry m key with - | e
    · rfl
    · exfalso
      have := nm_get_of_find hf
      rw [hg] at this
      exact hnz e (find_entry_mem_keys hf).1 this.symm
  · exact nm_get_of_find_none

/-- Witness for the amended C9 at concrete inputs. -/
theorem error_codes_closed_get_sentinel_witness :
    errCode Err.full ∈ ([0, -1, -2, -3, -4, -5, -6, -7] : List ℤ) ∧
    (nm_get (nm_set 0 SetAllocs.all (nm_init 0) [97] 7).2 [97] = 0 ↔
      nm_find_entry (nm_set 0 SetAllocs.all (nm_init 0) [97] 7).2 [97]
        = none) := by
  have h := error_codes_closed_get_sentinel
    (nm_set 0 SetAllocs.all (nm_init 0) [97] 7).2 [97]
  exact ⟨h.1 Err.full, h.2.2 (by decide)⟩

/-! ## Lemmas for `nv_map` / `nv_filter` (claim C8). -/

theorem nv_reserve_capacity {T : Type} [Inhabited T] (sizeofT : ℕ)
    (allocOk : Bool) (vec : NanoVector T) (n : ℕ) :
    (nv_reserve sizeofT allocOk vec n).2.capacity = vec.capacity ∨
    (nv_reserve sizeofT allocOk vec n).2.capacity = n := by
  rw [nv_reserve]
  split_ifs <;> simp

/-- The capacity after a push is the old capacity or, when the vector
was full, the chosen growth capacity. -/
theorem nv_push_capacity {T : Type} [Inhabited T] (sizeofT : ℕ)
    (allocOk : Bool) (out : NanoVector T) (x : T) :
    (nv_push sizeofT allocOk out x).2.capacity = out.capacity ∨
    (out.capacity ≤ out.size ∧
     (nv_push sizeofT allocOk out x).2.capacity
       = nv_push_growth out.capacity) := by
  by_cases hfull : out.size ≥ out.capacity
  · by_cases hwrap : nv_push_growth out.capacity < out.capacity
    · rw [nv_push, if_pos hfull]
      simp only [if_pos hwrap]
      exact Or.inl trivial
    · rcases hr : nv_reserve sizeofT allocOk out (nv_push_growth out.capacity)
        with ⟨e, v'⟩
      have hcapv' : v'.capacity = out.capacity ∨
          v'.capacity = nv_push_growth out.capacity := by
        have := nv_reserve_capacity sizeofT allocOk out
          (nv_push_growth out.capacity)
        rw [hr] at this
        exact this
      rw [nv_push, if_pos hfull]
      simp only [if_neg hwrap, hr]
      cases e <;>
        · rcases hcapv' with h1 | h1
          · exact Or.inl h1
          · exact Or.inr ⟨hfull, h1⟩
  · rw [nv_push, if_neg hfull]
    exact Or.inl rfl

/-- A push with a successful allocation succeeds provided any needed
growth step neither wraps nor overflows the byte-size computation. -/
theorem nv_push_ok_cond {T : Type} [Inhabited T] (sizeofT : ℕ)
    (out : NanoVector T) (x : T)
    (h : out.capacity ≤ out.size →
      out.capacity < nv_push_growth out.capacity ∧
      nanods_check_mul_overflow (nv_push_growth out.capacity) sizeofT = false) :
    (nv_push sizeofT true out x).1 = .ok := by
  by_cases hfull : out.size ≥ out.capacity
  · obtain ⟨hgt, hmul⟩ := h hfull
    rw [nv_push, if_pos hfull]
    simp only [if_neg (by omega : ¬ nv_push_growth out.capacity < out.capacity)]
    rw [nv_reserve, if_neg (by omega), if_neg (by simp [hmul]),
      if_neg (by simp)]
  · rw [nv_push, if_neg hfull]

theorem take_drop_cons {T : Type} [Inhabited T] (l : List T) (s i : ℕ)
    (hi : i < s) (hs : s ≤ l.length) :
    (l.take s).drop i
      = l.getD i default :: (l.take s).drop (i + 1) := by
  have hlt : i < (l.take s).length := by
    rw [List.length_take]
    omega
  rw [List.drop_eq_getElem_cons hlt, List.getElem_take,
    getD_of_lt _ _ _ (by omega)]

/-- When the map loop fails, the output vector has been freed and
reset. -/
theorem nvMapGo_fail {T : Type} [Inhabited T] (sizeofT : ℕ)
    (orc : ℕ → Bool) (func : T → T) (vec : NanoVector T) :
    ∀ (is : List ℕ) (out : NanoVector T),
      (nvMapGo sizeofT orc func vec is out).1 ≠ .ok →
      (nvMapGo sizeofT orc func vec is out).2 = nv_init T := by
  intro is
  induction is with
  | nil =>
      intro out h
      exact absurd rfl h
  | cons i is ih =>
      intro out h
      rcases hp : nv_push sizeofT (orc i) out (func (vec.data.getD i default))
        with ⟨e, out'⟩
      rw [nvMapGo] at h ⊢
      simp only [hp] at h ⊢
      cases e
      · exact ih out' h
      all_goals rfl

/-- When the filter loop fails, the output vector has been freed and
reset. -/
theorem nvFilterGo_fail {T : Type} [Inhabited T] (sizeofT : ℕ)
    (orc : ℕ → Bool) (pred : T → Bool) (vec : NanoVector T) :
    ∀ (is : List ℕ) (out : NanoVector T),
      (nvFilterGo sizeofT orc pred vec is out).1 ≠ .ok →
      (nvFilterGo sizeofT orc pred vec is out).2 = nv_init T := by
  intro is
  induction is with
  | nil =>
      intro out h
      exact absurd rfl h
  | cons i is ih =>
      intro out h
      rw [nvFilterGo] at h ⊢
      by_cases hpred : pred (vec.data.getD i default)
      · rcases hp : nv_push sizeofT (orc i) out (vec.data.getD i default)
          with ⟨e, out'⟩
        rw [if_pos hpred] at h ⊢
        simp only [hp] at h ⊢
        cases e
        · exact ih out' h
        all_goals rfl
      · rw [if_neg hpred] at h ⊢
        exact ih out h

/-- The filter loop with the always-true predicate is the map loop with
the identity function. -/
theorem nvFilterGo_true_eq_map {T : Type} [Inhabited T] (sizeofT : ℕ)
    (orc : ℕ → Bool) (vec : NanoVector T) :
    ∀ (is : List ℕ) (out : NanoVector T),
      nvFilterGo sizeofT orc (fun _ => true) vec is out
        = nvMapGo sizeofT orc (fun x => x) vec is out := by
  intro is
  induction is with
  | nil => intro out; rfl
  | cons i is ih =>
      intro out
      rw [nvFilterGo, nvMapGo, if_pos rfl]
      rcases hp : nv_push sizeofT (orc i) out (vec.data.getD i default)
        with ⟨e, out'⟩
      cases e
      · exact ih out'
      all_goals rfl

/-- The map loop with all allocations succeeding: pushes every listed
element, preserving well-formedness, provided the output still has room
to grow within `size_t` (guaranteed by the byte-size bound `hb`). -/
theorem nvMapGo_ok {T : Type} [Inhabited T] (sizeofT : ℕ) (orc : ℕ → Bool)
    (func : T → T) (vec : NanoVector T)
    (hst : 1 ≤ sizeofT)
    (hb : max 8 (2 * vec.size) * sizeofT ≤ SIZE_MAX)
    (horc : ∀ j, orc j = true) :
    ∀ (is : List ℕ) (out : NanoVector T),
      out.size + is.length ≤ vec.size → VecWF out →
      out.capacity ≤ max 8 (2 * vec.size) →
      (nvMapGo sizeofT orc func vec is out).1 = .ok ∧
      VecWF (nvMapGo sizeofT orc func vec is out).2 ∧
      nvContent (nvMapGo sizeofT orc func vec is out).2
        = nvContent out ++ is.map (fun j => func (vec.data.getD j default)) ∧
      (nvMapGo sizeofT orc func vec is out).2.size
        = out.size + is.length := by
  have hmaxle : max 8 (2 * vec.size) ≤ SIZE_MAX :=
    le_trans (Nat.le_mul_of_pos_right _ hst) hb
  have h64 : SIZE_MAX + 1 = 2 ^ 64 := by norm_num [SIZE_MAX]
  intro is
  induction is with
  | nil =>
      intro out hroom hwf hcap
      exact ⟨rfl, hwf, by simp [nvMapGo], by simp [nvMapGo]⟩
  | cons i is ih =>
      intro out hroom hwf hcap
      obtain ⟨hlen, hszc, hcapmax⟩ := hwf
      have hout_lt : out.size < vec.size := by
        simp only [List.length_cons] at hroom
        omega
      have hgrow_bound : out.capacity ≤ out.size →
          nv_push_growth out.capacity ≤ max 8 (2 * vec.size) ∧
          out.capacity < nv_push_growth out.capacity := by
        intro hfull
        rw [nv_push_growth]
        split_ifs with h0
        · exact ⟨le_max_left _ _, by omega⟩
        · have hsz2 : 2 * vec.size ≤ SIZE_MAX :=
            le_trans (le_max_right _ _) hmaxle
          have h2c : out.capacity * 2 < SIZE_MAX + 1 := by omega
          rw [Nat.mod_eq_of_lt h2c]
          refine ⟨le_trans (by omega) (le_max_right 8 (2 * vec.size)), by omega⟩
      have hok : (nv_push sizeofT true out (func (vec.data.getD i default))).1
          = .ok := by
        apply nv_push_ok_cond
        intro hfull
        obtain ⟨hgle, hgt⟩ := hgrow_bound hfull
        refine ⟨hgt, ?_⟩
        rw [← Bool.not_eq_true, check_mul_overflow_iff]
        intro hcon
        have := le_trans (Nat.mul_le_mul_right sizeofT hgle) hb
        omega
      obtain ⟨hwf', hsz', hcont'⟩ :=
        (nv_push_cases sizeofT true out (func (vec.data.getD i default))
          ⟨hlen, hszc, hcapmax⟩).1 hok
      have hcap' : (nv_push sizeofT true out
          (func (vec.data.getD i default))).2.capacity
          ≤ max 8 (2 * vec.size) := by
        rcases nv_push_capacity sizeofT true out (func (vec.data.getD i default))
          with h1 | ⟨hfull, h1⟩
        · rw [h1]
          exact hcap
        · rw [h1]
          exact (hgrow_bound hfull).1
      rcases hp : nv_push sizeofT true out (func (vec.data.getD i default))
        with ⟨e, out'⟩
      have he : e = .ok := by
        rw [hp] at hok
        exact hok
      subst he
      rw [hp] at hwf' hsz' hcont' hcap'
      have hwf2 : VecWF out' := hwf'
      have hsz2 : out'.size = out.size + 1 := hsz'
      have hcont2 : nvContent out'
          = nvContent out ++ [func (vec.data.getD i default)] := hcont'
      have hcap2 : out'.capacity ≤ max 8 (2 * vec.size) := hcap'
      have hrec := ih out' (by simp only [List.length_cons] at hroom; omega)
        hwf2 hcap2
      rw [nvMapGo, horc i, hp]
      refine ⟨hrec.1, hrec.2.1, ?_, ?_⟩
      · rw [hrec.2.2.1, hcont2, List.map_cons, List.append_assoc]
        rfl
      · rw [hrec.2.2.2, hsz2]
        simp only [List.length_cons]
        omega

theorem range_map_getD {T : Type} [Inhabited T] (l : List T) (s : ℕ)
    (hs : s ≤ l.length) :
    (List.range s).map (fun j => l.getD j default) = l.take s := by
  apply List.ext_getElem?
  intro k
  by_cases hk : k < s
  · rw [List.getElem?_map, List.getElem?_range hk, List.getElem?_take,
      if_pos hk, List.getElem?_eq_getElem (show k < l.length from by omega)]
    show some (l.getD k default) = some l[k]
    rw [getD_of_lt _ _ _ (show k < l.length from by omega)]
  · have h1 : ((List.range s).map (fun j => l.getD j default)).length ≤ k := by
      rw [List.length_map, List.length_range]
      omega
    have h2 : (l.take s).length ≤ k := by
      rw [List.length_take]
      omega
    rw [List.getElem?_eq_none h1, List.getElem?_eq_none h2]

/-- **C8**: over any well-formed vector whose doubled byte size fits in
`size_t`, when no allocation fails `nv_map` with the identity function
succeeds and reproduces the vector's logical contents (same length,
equal element at every index), and `nv_filter` with the always-true
predicate does the same; the input vector is passed as `const` and is
returned untouched by construction.  With any allocation outcomes and
any function/predicate, a failing `nv_map`/`nv_filter` discards the
partial output: the output vector comes back freed and reset
(`nv_init` state) together with the error. -/
theorem map_identity_filter_true {T : Type} [Inhabited T] (sizeofT : ℕ)
    (orc orc2 : ℕ → Bool) (vec : NanoVector T) (f : T → T) (p : T → Bool)
    (hst : 1 ≤ sizeofT)
    (hb : max 8 (2 * vec.size) * sizeofT ≤ SIZE_MAX)
    (hwf : VecWF vec) (horc : ∀ j, orc j = true) :
    ((nv_map sizeofT orc vec (fun x => x)).1 = .ok ∧
     nvContent (nv_map sizeofT orc vec (fun x => x)).2 = nvContent vec ∧
     (nv_map sizeofT orc vec (fun x => x)).2.size = vec.size) ∧
    ((nv_filter sizeofT orc vec (fun _ => true)).1 = .ok ∧
     nvContent (nv_filter sizeofT orc vec (fun _ => true)).2 = nvContent vec ∧
     (nv_filter sizeofT orc vec (fun _ => true)).2.size = vec.size) ∧
    ((nv_map sizeofT orc2 vec f).1 ≠ .ok →
      (nv_map sizeofT orc2 vec f).2 = nv_init T) ∧
    ((nv_filter sizeofT orc2 vec p).1 ≠ .ok →
      (nv_filter sizeofT orc2 vec p).2 = nv_init T) := by
  have hvlen : vec.size ≤ vec.data.length := by
    obtain ⟨h1, h2, -⟩ := hwf
    omega
  have hmap := nvMapGo_ok sizeofT orc (fun x => x) vec hst hb horc
    (List.range vec.size) (nv_init T)
    (by simp [nv_init]) (nv_init_wf T) (by simp [nv_init])
  have hcontent : nvContent (nvMapGo sizeofT orc (fun x => x) vec
      (List.range vec.size) (nv_init T)).2 = nvContent vec := by
    rw [hmap.2.2.1]
    show (List.range vec.size).map (fun j => vec.data.getD j default)
      = nvContent vec
    exact range_map_getD vec.data vec.size hvlen
  have hsize : (nvMapGo sizeofT orc (fun x => x) vec
      (List.range vec.size) (nv_init T)).2.size = vec.size := by
    rw [hmap.2.2.2]
    simp [nv_init]
  have hfe : nv_filter sizeofT orc vec (fun _ => true)
      = nv_map sizeofT orc vec (fun x => x) := by
    rw [nv_filter, nv_map]
    exact nvFilterGo_true_eq_map sizeofT orc vec (List.range vec.size)
      (nv_init T)
  refine ⟨⟨hmap.1, hcontent, hsize⟩, ?_, ?_, ?_⟩
  · rw [hfe]
    exact ⟨hmap.1, hcontent, hsize⟩
  · rw [nv_map]
    exact nvMapGo_fail sizeofT orc2 f vec (List.range vec.size) (nv_init T)
  · rw [nv_filter]
    exact nvFilterGo_fail sizeofT orc2 p vec (List.range vec.size) (nv_init T)

/-- Witness for C8 at concrete inputs. -/
theorem map_identity_filter_true_witness :
    (nv_map 4 (fun _ => true) (⟨[1, 2, 3], 3, 3⟩ : NanoVector ℕ)
      (fun x => x)).1 = .ok ∧
    nvContent (nv_map 4 (fun _ => true) (⟨[1, 2, 3], 3, 3⟩ : NanoVector ℕ)
      (fun x => x)).2 = [1, 2, 3] ∧
    nvContent (nv_filter 4 (fun _ => true) (⟨[1, 2, 3], 3, 3⟩ : NanoVector ℕ)
      (fun _ => true)).2 = [1, 2, 3] ∧
    (nv_map 4 (fun _ => false) (⟨[1, 2, 3], 3, 3⟩ : NanoVector ℕ)
      (fun x => x)).2 = nv_init ℕ := by
  have h := map_identity_filter_true 4 (fun _ => true) (fun _ => false)
    (⟨[1, 2, 3], 3, 3⟩ : NanoVector ℕ) (fun x => x) (fun _ => true)
    (by decide) (by decide) (by decide) (fun _ => rfl)
  refine ⟨h.1.1, ?_, ?_, h.2.2.1 (by decide)⟩
  · rw [h.1.2.1]
    rfl
  · rw [h.2.1.2.1]
    rfl

end NanoDS
